import Mathlib

/-!
# A min-heap priority queue (`PriorityQueue.h`)

Shallow embedding of the class template `PriorityQueue<E>`.

* The private member `std::vector<std::pair<int, E>> heap` is a `List (Int × E)`.
* Priorities are C++ `int`s.  The code only stores and compares them, so they are
  embedded as `Int`; every theorem below quantifies over all of `Int`, which
  contains the 32-bit range.
* Indices are C++ `int`s that the code keeps inside `[0, heap.size()]`; they are
  embedded as `Nat`.  `getParent 0` is `0` in both worlds (`(0 - 1) / 2` truncates
  to `0` in C++, and `0 - 1 = 0` in `Nat`).  The products `2 * parent + 1` stay
  below `2 ^ 31` as long as the vector holds fewer than `2 ^ 30` entries, which is
  the range this development speaks about.  The section on checked runs repeats
  the helpers on 32-bit `int` indices with guarded reads and shows that they
  agree with the `Nat` versions inside that range.
* The element type `E` comes with `operator==` (a decidable equality), with
  `operator<` (used by `std::pair`'s `operator<`; no law is assumed about it)
  and with a default value `E()` (`Inhabited E`).
* The two recursive helpers are written with a fuel argument so that they can be
  evaluated by the kernel; `bubbleUpAux_fuel` and `bubbleDownAux_fuel` show
  that the fuel handed out by `bubbleUp` and `bubbleDown` is never exhausted.
* Member functions that write `heap` return the new queue; `peek` and
  `remove_front`, which return a value, return the value paired with the queue
  they leave behind.  `size`, `empty`, `contains`, `get_priority`,
  `get_all_elements` and `get_all_priorities` are plain reads.
-/

set_option autoImplicit false
set_option linter.unusedSectionVars false

/-- The class `PriorityQueue<E>`: its one data member. -/
structure PriorityQueue (E : Type) where
  heap : List (Int × E)
deriving DecidableEq

namespace PriorityQueue

variable {E : Type} [DecidableEq E] [LT E] [DecidableRel (· < · : E → E → Prop)]

/-- The comparison `operator<` of `std::pair<int, E>`:
`a.first < b.first || (!(b.first < a.first) && a.second < b.second)`. -/
def pairLt (a b : Int × E) : Bool :=
  decide (a.1 < b.1) || (!decide (b.1 < a.1) && decide (a.2 < b.2))

/-- The constructor `PriorityQueue() {}`: an empty vector. -/
def new : PriorityQueue E := ⟨[]⟩

/-- Index of the parent: `(child - 1) / 2`. -/
def getParent (child : Nat) : Nat := (child - 1) / 2

/-- Index of the left child: `2 * parent + 1`. -/
def getLeftChild (parent : Nat) : Nat := 2 * parent + 1

/-- Index of the right child: `2 * parent + 2`. -/
def getRightChild (parent : Nat) : Nat := 2 * parent + 2

/-- The call `std::swap(heap[i], heap[j])`.  Both indices are in range at every
call site; outside the range the vector is returned as it is. -/
def swap (heap : List (Int × E)) (i j : Nat) : List (Int × E) :=
  match heap[i]?, heap[j]? with
  | some a, some b => (heap.set i b).set j a
  | _, _ => heap

/-- The test `heap[i] < heap[j]` on two slots of the vector. -/
def ltAt (heap : List (Int × E)) (i j : Nat) : Bool :=
  match heap[i]?, heap[j]? with
  | some a, some b => pairLt a b
  | _, _ => false

/-- The body of `bubbleUp`, with a bound on the recursion depth. -/
def bubbleUpAux : Nat → List (Int × E) → Nat → List (Int × E)
  | 0, heap, _ => heap
  | fuel + 1, heap, child =>
    let parent := getParent child
    if child = 0 then heap
    else if ltAt heap child parent then
      bubbleUpAux fuel (swap heap child parent) parent
    else heap

/-- The recursive up-heap `bubbleUp(child)`.  The index strictly decreases at
every recursive call, so `child + 1` levels of recursion are enough. -/
def bubbleUp (heap : List (Int × E)) (child : Nat) : List (Int × E) :=
  bubbleUpAux (child + 1) heap child

/-- The method `insert(priority, element)`. -/
def insert (q : PriorityQueue E) (priority : Int) (element : E) : PriorityQueue E :=
  if priority ≥ 0 then
    let heap := q.heap ++ [(priority, element)]
    ⟨bubbleUp heap (heap.length - 1)⟩
  else q

/-- The method `insert_all(new_elements)`: the loop calls `insert` on every pair,
first to last. -/
def insert_all (q : PriorityQueue E) (new_elements : List (Int × E)) : PriorityQueue E :=
  new_elements.foldl (fun acc e => insert acc e.1 e.2) q

/-- The body of `bubbleDown`, with a bound on the recursion depth. -/
def bubbleDownAux : Nat → List (Int × E) → Nat → List (Int × E)
  | 0, heap, _ => heap
  | fuel + 1, heap, parent =>
    let length := heap.length
    let left := getLeftChild parent
    let right := getRightChild parent
    let minIndex := parent
    let minIndex := if left < length && ltAt heap left minIndex then left else minIndex
    let minIndex := if right < length && ltAt heap right minIndex then right else minIndex
    if minIndex ≠ parent then
      bubbleDownAux fuel (swap heap minIndex parent) minIndex
    else heap

/-- The recursive down-heap `bubbleDown(parent)`.  The index strictly increases
at every recursive call and a call recurses only below `heap.size()`, so
`heap.size() + 1` levels of recursion are enough. -/
def bubbleDown (heap : List (Int × E)) (parent : Nat) : List (Int × E) :=
  bubbleDownAux (heap.length + 1) heap parent

/-- The method `size()`. -/
def size (q : PriorityQueue E) : Int := q.heap.length

/-- The method `empty()`: `heap.size() == 0`. -/
def empty (q : PriorityQueue E) : Bool := q.heap.length == 0

/-- The method `peek()`: `heap.front().second` when the queue is not empty,
`E()` otherwise.  The queue is returned as the call leaves it. -/
def peek [Inhabited E] (q : PriorityQueue E) : E × PriorityQueue E :=
  if !q.empty then
    match q.heap with
    | front :: _ => (front.2, q)
    | [] => (default, q)
  else (default, q)

/-- The method `remove_front()`. -/
def remove_front [Inhabited E] (q : PriorityQueue E) : E × PriorityQueue E :=
  if !q.empty then
    match q.heap with
    | front :: rest =>
      let element := (peek q).1
      -- heap.front() = heap.back();
      let back := (front :: rest).getLast (List.cons_ne_nil front rest)
      let heap := (front :: rest).set 0 back
      -- heap.pop_back();
      let heap := heap.dropLast
      (element, ⟨bubbleDown heap 0⟩)
    | [] => (default, q)
  else (default, q)

/-- The method `get_all_elements()`. -/
def get_all_elements (q : PriorityQueue E) : List E := q.heap.map Prod.snd

/-- The method `contains(element)`. -/
def contains (q : PriorityQueue E) (element : E) : Bool :=
  q.heap.any (fun e => decide (e.2 = element))

/-- The scan of `get_priority`: the first pair whose element matches decides. -/
def get_priorityLoop (element : E) : List (Int × E) → Int
  | [] => -1
  | e :: rest => if e.2 = element then e.1 else get_priorityLoop element rest

/-- The method `get_priority(element)`. -/
def get_priority (q : PriorityQueue E) (element : E) : Int :=
  get_priorityLoop element q.heap

/-- The method `get_all_priorities()`. -/
def get_all_priorities (q : PriorityQueue E) : List Int := q.heap.map Prod.fst

/-- The erase loop of `change_priority`: every pair whose element matches is
erased, the others keep their order; the flag is `foundElement`. -/
def eraseLoop (element : E) : List (Int × E) → List (Int × E) × Bool
  | [] => ([], false)
  | e :: rest =>
    let r := eraseLoop element rest
    if e.2 = element then (r.1, true) else (e :: r.1, r.2)

/-- The method `change_priority(element, new_priority)`. -/
def change_priority (q : PriorityQueue E) (element : E) (new_priority : Int) :
    PriorityQueue E :=
  let r := eraseLoop element q.heap
  if r.2 then insert ⟨r.1⟩ new_priority element else ⟨r.1⟩

/-! ## Specification vocabulary -/

/-- Priority stored at index `i` of the vector (`0` outside the vector, a value
that no statement below relies on). -/
def key (heap : List (Int × E)) (i : Nat) : Int :=
  match heap[i]? with
  | some e => e.1
  | none => 0

/-- The min-heap property: every non-root index holds a priority that is at
least the priority held by its parent index `(i - 1) / 2`. -/
def IsMinHeap (heap : List (Int × E)) : Prop :=
  ∀ i, i < heap.length → 0 < i → key heap (getParent i) ≤ key heap i

instance (heap : List (Int × E)) : Decidable (IsMinHeap heap) := by
  unfold IsMinHeap; infer_instance

/-- The vector is a min-heap except possibly between `k` and its parent, and
the children of `k` already respect the parent of `k`. -/
def UpInv (heap : List (Int × E)) (k : Nat) : Prop :=
  (∀ i, i < heap.length → 0 < i → i ≠ k → key heap (getParent i) ≤ key heap i) ∧
  (∀ i, i < heap.length → 0 < i → getParent i = k → 0 < k →
    key heap (getParent k) ≤ key heap i)

/-- The index that `bubbleDown(parent)` computes in `minIndex`. -/
def minIndexOf (heap : List (Int × E)) (parent : Nat) : Nat :=
  let m := if getLeftChild parent < heap.length && ltAt heap (getLeftChild parent) parent
    then getLeftChild parent else parent
  if getRightChild parent < heap.length && ltAt heap (getRightChild parent) m
    then getRightChild parent else m

/-- The vector is a min-heap except possibly between `k` and its children, and
the children of `k` already respect the parent of `k`. -/
def DownInv (heap : List (Int × E)) (k : Nat) : Prop :=
  (∀ i, i < heap.length → 0 < i → getParent i ≠ k → key heap (getParent i) ≤ key heap i) ∧
  (∀ i, i < heap.length → 0 < i → getParent i = k → 0 < k →
    key heap (getParent k) ≤ key heap i)

/-- The vector that `remove_front` hands to `bubbleDown(0)`: the last pair
copied over the root, then the last slot dropped. -/
def moveLast (front : Int × E) (rest : List (Int × E)) : List (Int × E) :=
  ((front :: rest).set 0 ((front :: rest).getLast (List.cons_ne_nil front rest))).dropLast

/-- One call of the mutating interface of the queue. -/
inductive Op (E : Type) where
  | insert (priority : Int) (element : E)
  | insert_all (new_elements : List (Int × E))
  | remove_front
  | change_priority (element : E) (new_priority : Int)

/-- The queue left behind by one call. -/
def Op.apply [Inhabited E] (q : PriorityQueue E) : Op E → PriorityQueue E
  | Op.insert priority element => q.insert priority element
  | Op.insert_all new_elements => q.insert_all new_elements
  | Op.remove_front => (q.remove_front).2
  | Op.change_priority element new_priority => q.change_priority element new_priority

/-- The queue left behind by a sequence of calls, first call first. -/
def run [Inhabited E] (ops : List (Op E)) (q : PriorityQueue E) : PriorityQueue E :=
  ops.foldl Op.apply q

/-- The root priorities `get_all_priorities()[0]` read just before each of `n`
successive `remove_front()` calls. -/
def drain [Inhabited E] : Nat → PriorityQueue E → List Int
  | 0, _ => []
  | n + 1, q => (q.get_all_priorities)[0]?.toList ++ drain n (q.remove_front).2

/-- All stored priorities are non-negative. -/
def NonNeg (heap : List (Int × E)) : Prop := ∀ e ∈ heap, 0 ≤ e.1

/-- Whether a call hands the element `y` to `insert`: only `insert` and
`insert_all` bring new elements into the queue (`change_priority` re-inserts an
element it has just found in the vector). -/
def Op.inserts (y : E) : Op E → Bool
  | Op.insert _ element => decide (element = y)
  | Op.insert_all new_elements => new_elements.any (fun e => decide (e.2 = y))
  | Op.remove_front => false
  | Op.change_priority _ _ => false

/-- Holds when some stored pair carries the element `y`. -/
def HasElem (heap : List (Int × E)) (y : E) : Prop := ∃ e ∈ heap, e.2 = y

/-- The spec's reading of `insert_all`: `insert(priority, element)` is called
once per list entry, from the first entry to the last. -/
def insertOneByOne (q : PriorityQueue E) : List (Int × E) → PriorityQueue E
  | [] => q
  | e :: rest => insertOneByOne (insert q e.1 e.2) rest

/-! ## Checked runs on 32-bit `int` indices

The definitions below follow the same source lines once more, this time with the
index arithmetic on `int` made explicit (two's-complement values of 32 bits) and
with every `heap[i]` guarded by a range check, so that a read outside the vector
and an unbounded recursion both show up as a `Fault`. -/

/-- What can go wrong in a checked run. -/
inductive Fault where
  | indexOutOfRange
  | fuelExhausted
deriving DecidableEq

/-- The value a 32-bit `int` holds after a computation whose exact result is `x`
(two's complement; the constant comes first so that the sum stays folded when
`x` is not a numeral). -/
def wrapInt (x : Int) : Int := (2147483648 + x) % 4294967296 - 2147483648

/-- The method `getParent` on `int`: `(child - 1) / 2`, the division truncating. -/
def getParentInt (child : Int) : Int := wrapInt (Int.tdiv (wrapInt (child - 1)) 2)

/-- The method `getLeftChild` on `int`: `2 * parent + 1`. -/
def getLeftChildInt (parent : Int) : Int := wrapInt (wrapInt (2 * parent) + 1)

/-- The method `getRightChild` on `int`: `2 * parent + 2`. -/
def getRightChildInt (parent : Int) : Int := wrapInt (wrapInt (2 * parent) + 2)

/-- The read `heap[i]`, checked against `[0, heap.size())`. -/
def readAt (heap : List (Int × E)) (i : Int) : Except Fault (Int × E) :=
  if 0 ≤ i then
    match heap[i.toNat]? with
    | some e => Except.ok e
    | none => Except.error Fault.indexOutOfRange
  else Except.error Fault.indexOutOfRange

/-- The test `inRange && heap[i] < heap[j]`: the reads happen only when the
first operand of `&&` holds. -/
def guardedLt (heap : List (Int × E)) (inRange : Bool) (i j : Int) : Except Fault Bool :=
  if inRange then
    match readAt heap i, readAt heap j with
    | Except.ok a, Except.ok b => Except.ok (pairLt a b)
    | _, _ => Except.error Fault.indexOutOfRange
  else Except.ok false

/-- The method `bubbleUp(child)` with checked reads. -/
def bubbleUpChecked : Nat → List (Int × E) → Int → Except Fault (List (Int × E))
  | 0, _, _ => Except.error Fault.fuelExhausted
  | fuel + 1, heap, child =>
    let parent := getParentInt child
    if child = 0 then Except.ok heap
    else
      match guardedLt heap true child parent with
      | Except.ok true => bubbleUpChecked fuel (swap heap child.toNat parent.toNat) parent
      | Except.ok false => Except.ok heap
      | Except.error f => Except.error f

/-- The first half of `bubbleDown(parent)` with checked reads: the value of
`minIndex` after the two tests. -/
def minIndexChecked (heap : List (Int × E)) (parent : Int) : Except Fault Int :=
  let length := wrapInt heap.length
  let left := getLeftChildInt parent
  let right := getRightChildInt parent
  let minIndex := parent
  match guardedLt heap (decide (left < length)) left minIndex with
  | Except.error f => Except.error f
  | Except.ok b =>
    let minIndex := if b then left else minIndex
    match guardedLt heap (decide (right < length)) right minIndex with
    | Except.error f => Except.error f
    | Except.ok b => Except.ok (if b then right else minIndex)

/-- The method `bubbleDown(parent)` with checked reads. -/
def bubbleDownChecked : Nat → List (Int × E) → Int → Except Fault (List (Int × E))
  | 0, _, _ => Except.error Fault.fuelExhausted
  | fuel + 1, heap, parent =>
    match minIndexChecked heap parent with
    | Except.error f => Except.error f
    | Except.ok minIndex =>
      if minIndex ≠ parent then
        match readAt heap minIndex, readAt heap parent with
        | Except.ok _, Except.ok _ =>
          bubbleDownChecked fuel (swap heap minIndex.toNat parent.toNat) minIndex
        | _, _ => Except.error Fault.indexOutOfRange
      else Except.ok heap

/-- The method `insert` over the checked up-heap; `heap.size() - 1` is converted
to `int`. -/
def insertChecked (fuel : Nat) (q : PriorityQueue E) (priority : Int) (element : E) :
    Except Fault (PriorityQueue E) :=
  if priority ≥ 0 then
    let heap := q.heap ++ [(priority, element)]
    match bubbleUpChecked fuel heap (wrapInt (heap.length - 1)) with
    | Except.ok heap => Except.ok ⟨heap⟩
    | Except.error f => Except.error f
  else Except.ok q

/-- The method `remove_front` over the checked down-heap.  `front()` and
`back()` are called on a non-empty vector only. -/
def remove_frontChecked [Inhabited E] (fuel : Nat) (q : PriorityQueue E) :
    Except Fault (E × PriorityQueue E) :=
  if !q.empty then
    match q.heap with
    | front :: rest =>
      let element := (peek q).1
      let back := (front :: rest).getLast (List.cons_ne_nil front rest)
      let heap := ((front :: rest).set 0 back).dropLast
      match bubbleDownChecked fuel heap 0 with
      | Except.ok heap => Except.ok (element, ⟨heap⟩)
      | Except.error f => Except.error f
    | [] => Except.ok (default, q)
  else Except.ok (default, q)

/-- The method `change_priority` over the checked `insert`; the erase loop walks
the vector with an iterator and indexes nothing. -/
def change_priorityChecked (fuel : Nat) (q : PriorityQueue E) (element : E)
    (new_priority : Int) : Except Fault (PriorityQueue E) :=
  let r := eraseLoop element q.heap
  if r.2 then insertChecked fuel ⟨r.1⟩ new_priority element else Except.ok ⟨r.1⟩

/-! ## Ordering the pairs by a rank -/

/-- Rank, under `f`, of the pair stored at index `i` (`d` outside the vector). -/
def keyBy {α : Type} (f : Int × E → α) (d : α) (heap : List (Int × E)) (i : Nat) : α :=
  match heap[i]? with
  | some e => f e
  | none => d

/-- A rank that the `operator<` of the pairs respects: a smaller pair has a
rank that is not above, and a pair that is not smaller has a rank that is not
below. -/
def Respects {α : Type} [LE α] (f : Int × E → α) : Prop :=
  ∀ a b : Int × E, (pairLt a b = true → f a ≤ f b) ∧ (pairLt a b = false → f b ≤ f a)

/-- The min-heap property for the rank `f`. -/
def IsHeapBy {α : Type} [LE α] (f : Int × E → α) (d : α) (heap : List (Int × E)) : Prop :=
  ∀ i, i < heap.length → 0 < i → keyBy f d heap (getParent i) ≤ keyBy f d heap i

/-- The counterpart of `UpInv` for the rank `f`. -/
def UpInvBy {α : Type} [LE α] (f : Int × E → α) (d : α) (heap : List (Int × E))
    (k : Nat) : Prop :=
  (∀ i, i < heap.length → 0 < i → i ≠ k →
    keyBy f d heap (getParent i) ≤ keyBy f d heap i) ∧
  (∀ i, i < heap.length → 0 < i → getParent i = k → 0 < k →
    keyBy f d heap (getParent k) ≤ keyBy f d heap i)

/-- The counterpart of `DownInv` for the rank `f`. -/
def DownInvBy {α : Type} [LE α] (f : Int × E → α) (d : α) (heap : List (Int × E))
    (k : Nat) : Prop :=
  (∀ i, i < heap.length → 0 < i → getParent i ≠ k →
    keyBy f d heap (getParent i) ≤ keyBy f d heap i) ∧
  (∀ i, i < heap.length → 0 < i → getParent i = k → 0 < k →
    keyBy f d heap (getParent k) ≤ keyBy f d heap i)

/-- The elements returned by `n` successive `remove_front()` calls. -/
def drainElements [Inhabited E] : Nat → PriorityQueue E → List E
  | 0, _ => []
  | n + 1, q => (q.remove_front).1 :: drainElements n (q.remove_front).2

/-! ## An element type whose `operator<` is not a linear order -/

/-- An element type with two fields whose `operator==` compares both fields and
whose `operator<` compares the `rank` field only: two elements of equal rank and
different tag are unequal, and neither is smaller than the other. -/
structure Tagged where
  rank : Nat
  tag : Nat
deriving DecidableEq

instance : LT Tagged := ⟨fun a b => a.rank < b.rank⟩

instance : DecidableRel (fun a b : Tagged => a < b) :=
  fun a b => inferInstanceAs (Decidable (a.rank < b.rank))

instance : Inhabited Tagged := ⟨⟨0, 0⟩⟩

/-! # Lemmas -/

/-! ## Comparison and swap -/

theorem pairLt_le {a b : Int × E} (h : pairLt a b = true) : a.1 ≤ b.1 := by
  simp only [pairLt, Bool.or_eq_true, Bool.and_eq_true, decide_eq_true_eq,
    Bool.not_eq_true', decide_eq_false_iff_not] at h
  omega

theorem pairLt_ge {a b : Int × E} (h : pairLt a b = false) : b.1 ≤ a.1 := by
  simp only [pairLt, Bool.or_eq_false_iff, decide_eq_false_iff_not] at h
  omega

theorem ltAt_le {heap : List (Int × E)} {i j : Nat} (h : ltAt heap i j = true) :
    key heap i ≤ key heap j := by
  unfold ltAt at h
  unfold key
  cases hi : heap[i]? <;> cases hj : heap[j]? <;> simp_all
  exact pairLt_le h

theorem ltAt_ge {heap : List (Int × E)} {i j : Nat} (hi : i < heap.length)
    (hj : j < heap.length) (h : ltAt heap i j = false) : key heap j ≤ key heap i := by
  unfold ltAt at h
  unfold key
  rw [List.getElem?_eq_getElem hi, List.getElem?_eq_getElem hj] at h ⊢
  exact pairLt_ge h

theorem swap_eq {heap : List (Int × E)} {i j : Nat} (hi : i < heap.length)
    (hj : j < heap.length) : swap heap i j = (heap.set i heap[j]).set j heap[i] := by
  simp [swap, List.getElem?_eq_getElem hi, List.getElem?_eq_getElem hj]

@[simp] theorem length_swap (heap : List (Int × E)) (i j : Nat) :
    (swap heap i j).length = heap.length := by
  unfold swap
  split <;> simp

theorem getElem?_swap_left {heap : List (Int × E)} {i j : Nat} (hi : i < heap.length)
    (hj : j < heap.length) : (swap heap i j)[i]? = heap[j]? := by
  rw [swap_eq hi hj]
  by_cases h : i = j
  · subst h; simp [List.getElem?_set, hi]
  · have h' : ¬ j = i := fun e => h e.symm
    simp [List.getElem?_set, hi, hj, h, h']

theorem getElem?_swap_right {heap : List (Int × E)} {i j : Nat} (hi : i < heap.length)
    (hj : j < heap.length) : (swap heap i j)[j]? = heap[i]? := by
  rw [swap_eq hi hj]
  simp [List.getElem?_set, hi, hj]

theorem getElem?_swap_other {heap : List (Int × E)} {i j m : Nat} (hi : m ≠ i)
    (hj : m ≠ j) : (swap heap i j)[m]? = heap[m]? := by
  unfold swap
  split
  · have h1 : ¬ i = m := fun e => hi e.symm
    have h2 : ¬ j = m := fun e => hj e.symm
    simp [List.getElem?_set, h1, h2]
  · rfl

theorem key_swap_left {heap : List (Int × E)} {i j : Nat} (hi : i < heap.length)
    (hj : j < heap.length) : key (swap heap i j) i = key heap j := by
  unfold key; rw [getElem?_swap_left hi hj]

theorem key_swap_right {heap : List (Int × E)} {i j : Nat} (hi : i < heap.length)
    (hj : j < heap.length) : key (swap heap i j) j = key heap i := by
  unfold key; rw [getElem?_swap_right hi hj]

theorem key_swap_other {heap : List (Int × E)} {i j m : Nat} (hi : m ≠ i)
    (hj : m ≠ j) : key (swap heap i j) m = key heap m := by
  unfold key; rw [getElem?_swap_other hi hj]

theorem count_set_add {α : Type} [DecidableEq α] (l : List α) (i : Nat)
    (h : i < l.length) (a x : α) :
    (l.set i a).count x + (if l[i] = x then 1 else 0)
      = l.count x + (if a = x then 1 else 0) := by
  induction l generalizing i with
  | nil => simp at h
  | cons y ys ih =>
    cases i with
    | zero =>
      simp only [List.set_cons_zero, List.count_cons, List.getElem_cons_zero, beq_iff_eq]
      omega
    | succ n =>
      have hn : n < ys.length := by simpa using h
      have := ih n hn
      simp only [List.set_cons_succ, List.count_cons, List.getElem_cons_succ]
      omega

theorem swap_perm (heap : List (Int × E)) (i j : Nat) : (swap heap i j).Perm heap := by
  by_cases hi : i < heap.length
  · by_cases hj : j < heap.length
    · rw [swap_eq hi hj, List.perm_iff_count]
      intro x
      have hj' : j < (heap.set i heap[j]).length := by simpa using hj
      have h1 := count_set_add (heap.set i heap[j]) j hj' heap[i] x
      have h2 := count_set_add heap i hi heap[j] x
      have h3 : (heap.set i heap[j])[j] = heap[j] := by
        rw [List.getElem_set]; split <;> rfl
      rw [h3] at h1
      omega
    · have : heap[j]? = none := by simp [List.getElem?_eq_none_iff]; omega
      simp [swap, this]
  · have : heap[i]? = none := by simp [List.getElem?_eq_none_iff]; omega
    simp [swap, this]

/-! ## Up-heap -/

theorem getParent_lt {i : Nat} (h : 0 < i) : getParent i < i := by
  unfold getParent; omega

@[simp] theorem length_bubbleUpAux (fuel : Nat) (heap : List (Int × E)) (child : Nat) :
    (bubbleUpAux fuel heap child).length = heap.length := by
  induction fuel generalizing heap child with
  | zero => rfl
  | succ n ih =>
    simp only [bubbleUpAux]
    split
    · rfl
    · split
      · rw [ih]; simp
      · rfl

theorem bubbleUpAux_perm (fuel : Nat) (heap : List (Int × E)) (child : Nat) :
    (bubbleUpAux fuel heap child).Perm heap := by
  induction fuel generalizing heap child with
  | zero => exact List.Perm.refl _
  | succ n ih =>
    simp only [bubbleUpAux]
    split
    · exact List.Perm.refl _
    · split
      · exact (ih _ _).trans (swap_perm _ _ _)
      · exact List.Perm.refl _

theorem bubbleUpAux_fuel_irrel (f g : Nat) (heap : List (Int × E)) (child : Nat)
    (hf : child < f) (hg : child < g) :
    bubbleUpAux f heap child = bubbleUpAux g heap child := by
  induction f generalizing g heap child with
  | zero => omega
  | succ n ih =>
    cases g with
    | zero => omega
    | succ m =>
      simp only [bubbleUpAux]
      split
      · rfl
      · split
        · have hp : getParent child < child := getParent_lt (by omega)
          exact ih m _ _ (by omega) (by omega)
        · rfl

/-- Fuel adequacy for the up-heap: with more than `child` levels available the
result does not depend on the bound, so the bound is never what stops
`bubbleUp`. -/
theorem bubbleUpAux_fuel (fuel : Nat) (heap : List (Int × E)) (child : Nat)
    (h : child < fuel) : bubbleUpAux fuel heap child = bubbleUp heap child :=
  bubbleUpAux_fuel_irrel fuel (child + 1) heap child h (Nat.lt_succ_self child)

theorem bubbleUpAux_isMinHeap (fuel : Nat) (heap : List (Int × E)) (k : Nat)
    (hf : k < fuel) (hk : k < heap.length) (inv : UpInv heap k) :
    IsMinHeap (bubbleUpAux fuel heap k) := by
  induction fuel generalizing heap k with
  | zero => omega
  | succ n ih =>
    obtain ⟨inv1, inv2⟩ := inv
    simp only [bubbleUpAux]
    split
    · rename_i h0
      intro i hi hpos
      exact inv1 i hi hpos (by omega)
    · rename_i h0
      have hp : getParent k < k := getParent_lt (by omega)
      have hpl : getParent k < heap.length := by omega
      split
      · rename_i hlt
        have hle := ltAt_le hlt
        apply ih _ _ (by omega) (by simpa using hpl)
        constructor
        · intro i hi hpos hne
          rw [length_swap] at hi
          by_cases hik : i = k
          · subst hik
            rw [key_swap_left hk hpl, key_swap_right hk hpl]
            exact hle
          · rw [key_swap_other hik hne]
            by_cases hpk : getParent i = k
            · rw [hpk, key_swap_left hk hpl]
              exact inv2 i hi hpos hpk (by omega)
            · by_cases hpp : getParent i = getParent k
              · rw [hpp, key_swap_right hk hpl]
                have := inv1 i hi hpos hik
                rw [hpp] at this
                omega
              · rw [key_swap_other hpk hpp]
                exact inv1 i hi hpos hik
        · intro i hi hpos hpi hppos
          rw [length_swap] at hi
          have hgp : getParent (getParent k) < getParent k := getParent_lt hppos
          rw [key_swap_other (by omega) (by omega)]
          have h1 := inv1 (getParent k) hpl hppos (by omega)
          by_cases hik : i = k
          · subst hik
            rw [key_swap_left hk hpl]
            exact h1
          · have hip : getParent i < i := getParent_lt hpos
            rw [key_swap_other hik (by omega)]
            have h2 := inv1 i hi hpos hik
            rw [hpi] at h2
            omega
      · rename_i hlt
        have hge := ltAt_ge hk hpl (by simpa using hlt)
        intro i hi hpos
        by_cases hik : i = k
        · subst hik; exact hge
        · exact inv1 i hi hpos hik

theorem key_append_left (heap : List (Int × E)) (e : Int × E) {i : Nat}
    (h : i < heap.length) : key (heap ++ [e]) i = key heap i := by
  unfold key
  rw [List.getElem?_append_left h]

theorem insert_heap_of_nonneg (q : PriorityQueue E) (priority : Int) (element : E)
    (h : 0 ≤ priority) :
    (insert q priority element).heap
      = bubbleUp (q.heap ++ [(priority, element)]) q.heap.length := by
  simp [insert, h]

theorem insert_of_neg (q : PriorityQueue E) (priority : Int) (element : E)
    (h : priority < 0) : insert q priority element = q := by
  have : ¬ priority ≥ 0 := by omega
  simp [insert, this]

theorem insert_perm (q : PriorityQueue E) (priority : Int) (element : E)
    (h : 0 ≤ priority) :
    (insert q priority element).heap.Perm ((priority, element) :: q.heap) := by
  rw [insert_heap_of_nonneg q priority element h]
  exact (bubbleUpAux_perm _ _ _).trans (List.perm_append_singleton _ _)

theorem insert_isMinHeap (q : PriorityQueue E) (priority : Int) (element : E)
    (hq : IsMinHeap q.heap) : IsMinHeap (insert q priority element).heap := by
  by_cases h : 0 ≤ priority
  · rw [insert_heap_of_nonneg q priority element h]
    apply bubbleUpAux_isMinHeap _ _ _ (Nat.lt_succ_self _) (by simp)
    constructor
    · intro i hi hpos hne
      have hi' : i < q.heap.length := by
        simp only [List.length_append, List.length_singleton] at hi; omega
      have hp : getParent i < i := getParent_lt hpos
      rw [key_append_left _ _ hi', key_append_left _ _ (by omega)]
      exact hq i hi' hpos
    · intro i hi hpos hpi _
      have hp : getParent i < i := getParent_lt hpos
      simp only [List.length_append, List.length_singleton] at hi
      omega
  · rw [insert_of_neg q priority element (by omega)]
    exact hq

/-! ## Down-heap -/

theorem bubbleDownAux_succ (fuel : Nat) (heap : List (Int × E)) (parent : Nat) :
    bubbleDownAux (fuel + 1) heap parent =
      if minIndexOf heap parent ≠ parent then
        bubbleDownAux fuel (swap heap (minIndexOf heap parent) parent) (minIndexOf heap parent)
      else heap := rfl

@[simp] theorem length_bubbleDownAux (fuel : Nat) (heap : List (Int × E)) (parent : Nat) :
    (bubbleDownAux fuel heap parent).length = heap.length := by
  induction fuel generalizing heap parent with
  | zero => rfl
  | succ n ih =>
    rw [bubbleDownAux_succ]
    split
    · rw [ih]; simp
    · rfl

theorem bubbleDownAux_perm (fuel : Nat) (heap : List (Int × E)) (parent : Nat) :
    (bubbleDownAux fuel heap parent).Perm heap := by
  induction fuel generalizing heap parent with
  | zero => exact List.Perm.refl _
  | succ n ih =>
    rw [bubbleDownAux_succ]
    split
    · exact (ih _ _).trans (swap_perm _ _ _)
    · exact List.Perm.refl _

theorem minIndexOf_cases (heap : List (Int × E)) (k : Nat) :
    (minIndexOf heap k = k ∨
      (k < minIndexOf heap k ∧ minIndexOf heap k < heap.length ∧
        getParent (minIndexOf heap k) = k ∧
        key heap (minIndexOf heap k) ≤ key heap k)) ∧
    (∀ i, i < heap.length → 0 < i → getParent i = k →
      key heap (minIndexOf heap k) ≤ key heap i) := by
  have hchild : ∀ i, 0 < i → getParent i = k → i = 2 * k + 1 ∨ i = 2 * k + 2 := by
    intro i hpos hp
    unfold getParent at hp
    omega
  have hpl : getParent (2 * k + 1) = k := by unfold getParent; omega
  have hpr : getParent (2 * k + 2) = k := by unfold getParent; omega
  unfold minIndexOf getLeftChild getRightChild
  by_cases hL : (decide (2 * k + 1 < heap.length) && ltAt heap (2 * k + 1) k) = true
  · rw [if_pos hL]
    have hL' := hL
    simp only [Bool.and_eq_true, decide_eq_true_eq] at hL'
    have hLk := ltAt_le hL'.2
    by_cases hR : (decide (2 * k + 2 < heap.length) && ltAt heap (2 * k + 2) (2 * k + 1)) = true
    · rw [if_pos hR]
      simp only [Bool.and_eq_true, decide_eq_true_eq] at hR
      have hRL := ltAt_le hR.2
      refine ⟨Or.inr ⟨by omega, hR.1, hpr, by omega⟩, ?_⟩
      intro i hi hpos hp
      rcases hchild i hpos hp with rfl | rfl
      · exact hRL
      · exact le_refl _
    · rw [if_neg hR]
      refine ⟨Or.inr ⟨by omega, hL'.1, hpl, hLk⟩, ?_⟩
      intro i hi hpos hp
      rcases hchild i hpos hp with rfl | rfl
      · exact le_refl _
      · have hf : ltAt heap (2 * k + 2) (2 * k + 1) = false := by
          simp only [Bool.and_eq_true, decide_eq_true_eq, not_and, Bool.not_eq_true] at hR
          exact hR hi
        exact ltAt_ge hi hL'.1 hf
  · rw [if_neg hL]
    simp only [Bool.and_eq_true, decide_eq_true_eq, not_and, Bool.not_eq_true] at hL
    by_cases hR : (decide (2 * k + 2 < heap.length) && ltAt heap (2 * k + 2) k) = true
    · rw [if_pos hR]
      simp only [Bool.and_eq_true, decide_eq_true_eq] at hR
      have hRk := ltAt_le hR.2
      refine ⟨Or.inr ⟨by omega, hR.1, hpr, hRk⟩, ?_⟩
      intro i hi hpos hp
      rcases hchild i hpos hp with rfl | rfl
      · have := ltAt_ge hi (by omega) (hL hi)
        omega
      · exact le_refl _
    · rw [if_neg hR]
      simp only [Bool.and_eq_true, decide_eq_true_eq, not_and, Bool.not_eq_true] at hR
      refine ⟨Or.inl rfl, ?_⟩
      intro i hi hpos hp
      rcases hchild i hpos hp with rfl | rfl
      · exact ltAt_ge hi (by omega) (hL hi)
      · exact ltAt_ge hi (by omega) (hR hi)

theorem bubbleDownAux_isMinHeap (fuel : Nat) (heap : List (Int × E)) (k : Nat)
    (hf : heap.length ≤ fuel + k) (inv : DownInv heap k) :
    IsMinHeap (bubbleDownAux fuel heap k) := by
  induction fuel generalizing heap k with
  | zero =>
    intro i hi hpos
    simp only [bubbleDownAux] at hi ⊢
    have hp : getParent i < i := getParent_lt hpos
    exact inv.1 i hi hpos (by omega)
  | succ n ih =>
    obtain ⟨inv1, inv2⟩ := inv
    rw [bubbleDownAux_succ]
    obtain ⟨hm, hmin⟩ := minIndexOf_cases heap k
    generalize minIndexOf heap k = m at hm hmin
    split
    · rename_i hne
      rcases hm with hm | ⟨hkm, hml, hpm, hmk⟩
      · exact absurd hm hne
      · have hkl : k < heap.length := by omega
        apply ih _ _ (by simp only [length_swap]; omega)
        constructor
        · intro i hi hpos hpi
          rw [length_swap] at hi
          have hip : getParent i < i := getParent_lt hpos
          by_cases him : i = m
          · subst him
            rw [hpm, key_swap_left hml hkl, key_swap_right hml hkl]
            exact hmk
          · by_cases hik : i = k
            · subst hik
              have hgp : getParent i ≠ m := by omega
              rw [key_swap_right hml hkl, key_swap_other hgp (by omega)]
              exact inv2 m hml (by omega) hpm hpos
            · rw [key_swap_other him hik]
              by_cases hpk : getParent i = k
              · rw [hpk, key_swap_right hml hkl]
                exact hmin i hi hpos hpk
              · rw [key_swap_other hpi hpk]
                exact inv1 i hi hpos hpk
        · intro i hi hpos hpi _
          rw [length_swap] at hi
          have hip : getParent i < i := getParent_lt hpos
          rw [hpm, key_swap_right hml hkl, key_swap_other (by omega) (by omega)]
          have := inv1 i hi hpos (by omega)
          rw [hpi] at this
          exact this
    · rename_i hne
      have hmk : m = k := by
        by_contra h
        exact hne h
      subst hmk
      intro i hi hpos
      by_cases hpk : getParent i = m
      · rw [hpk]; exact hmin i hi hpos hpk
      · exact inv1 i hi hpos hpk

/-- Fuel adequacy for the down-heap: once the bound covers the distance from
`parent` to the end of the vector the result does not depend on it. -/
theorem bubbleDownAux_fuel_irrel (f g : Nat) (heap : List (Int × E)) (parent : Nat)
    (hf : heap.length ≤ f + parent) (hg : heap.length ≤ g + parent) :
    bubbleDownAux f heap parent = bubbleDownAux g heap parent := by
  induction f generalizing g heap parent with
  | zero =>
    cases g with
    | zero => rfl
    | succ m =>
      rw [bubbleDownAux_succ]
      rcases (minIndexOf_cases heap parent).1 with h | ⟨h1, h2, _, _⟩
      · simp [h, bubbleDownAux]
      · omega
  | succ n ih =>
    cases g with
    | zero =>
      rw [bubbleDownAux_succ]
      rcases (minIndexOf_cases heap parent).1 with h | ⟨h1, h2, _, _⟩
      · simp [h, bubbleDownAux]
      · omega
    | succ m =>
      rw [bubbleDownAux_succ, bubbleDownAux_succ]
      rcases (minIndexOf_cases heap parent).1 with h | ⟨h1, h2, _, _⟩
      · simp [h]
      · split
        · exact ih m _ _ (by simp only [length_swap]; omega) (by simp only [length_swap]; omega)
        · rfl

theorem bubbleDownAux_fuel (fuel : Nat) (heap : List (Int × E)) (parent : Nat)
    (h : heap.length ≤ fuel + parent) :
    bubbleDownAux fuel heap parent = bubbleDown heap parent :=
  bubbleDownAux_fuel_irrel fuel (heap.length + 1) heap parent h (by omega)

/-! ## Front removal -/

theorem remove_front_cons [Inhabited E] (q : PriorityQueue E) (front : Int × E)
    (rest : List (Int × E)) (h : q.heap = front :: rest) :
    remove_front q = (front.2, ⟨bubbleDown (moveLast front rest) 0⟩) := by
  obtain ⟨heap⟩ := q
  simp only at h
  subst h
  simp [remove_front, peek, empty, moveLast]

theorem remove_front_nil [Inhabited E] (q : PriorityQueue E) (h : q.heap = []) :
    remove_front q = (default, q) := by
  obtain ⟨heap⟩ := q
  simp only at h
  subst h
  simp [remove_front, empty]

theorem moveLast_perm (front : Int × E) (rest : List (Int × E)) :
    (moveLast front rest).Perm rest := by
  unfold moveLast
  cases rest with
  | nil => simp
  | cons b l =>
    have hne : (b :: l) ≠ [] := List.cons_ne_nil b l
    rw [List.getLast_cons hne, List.set_cons_zero, List.dropLast_cons_of_ne_nil hne]
    have h := List.dropLast_concat_getLast hne
    have h2 : ((b :: l).getLast hne :: (b :: l).dropLast).Perm
        ((b :: l).dropLast ++ [(b :: l).getLast hne]) :=
      (List.perm_append_singleton _ _).symm
    rw [h] at h2
    exact h2

theorem length_moveLast (front : Int × E) (rest : List (Int × E)) :
    (moveLast front rest).length = rest.length := (moveLast_perm front rest).length_eq

theorem key_moveLast (front : Int × E) (rest : List (Int × E)) {i : Nat} (hpos : 0 < i)
    (hi : i < rest.length) : key (moveLast front rest) i = key (front :: rest) i := by
  unfold key moveLast
  rw [List.getElem?_dropLast]
  have h1 : i < ((front :: rest).set 0
      ((front :: rest).getLast (List.cons_ne_nil front rest))).length - 1 := by
    simp only [List.length_set, List.length_cons]; omega
  rw [if_pos h1, List.getElem?_set_ne (by omega)]

theorem moveLast_downInv (front : Int × E) (rest : List (Int × E))
    (h : IsMinHeap (front :: rest)) : DownInv (moveLast front rest) 0 := by
  constructor
  · intro i hi hpos hp
    rw [length_moveLast] at hi
    have hip : getParent i < i := getParent_lt hpos
    rw [key_moveLast front rest (by omega) (by omega), key_moveLast front rest hpos hi]
    exact h i (by simp only [List.length_cons]; omega) hpos
  · intro i _ _ _ h0
    omega

theorem remove_front_perm [Inhabited E] (q : PriorityQueue E) (front : Int × E)
    (rest : List (Int × E)) (h : q.heap = front :: rest) :
    (remove_front q).2.heap.Perm rest := by
  rw [remove_front_cons q front rest h]
  exact (bubbleDownAux_perm _ _ _).trans (moveLast_perm front rest)

theorem remove_front_isMinHeap [Inhabited E] (q : PriorityQueue E)
    (hq : IsMinHeap q.heap) : IsMinHeap (remove_front q).2.heap := by
  cases hh : q.heap with
  | nil => rw [remove_front_nil q hh, hh]; rw [hh] at hq; exact hq
  | cons front rest =>
    rw [remove_front_cons q front rest hh]
    rw [hh] at hq
    exact bubbleDownAux_isMinHeap _ _ _ (by omega) (moveLast_downInv front rest hq)

/-! ## The root of a min-heap -/

theorem isMinHeap_root_le (heap : List (Int × E)) (h : IsMinHeap heap) (i : Nat)
    (hi : i < heap.length) : key heap 0 ≤ key heap i := by
  induction i using Nat.strong_induction_on with
  | _ i ih =>
    by_cases hpos : 0 < i
    · have hp : getParent i < i := getParent_lt hpos
      have h1 := ih (getParent i) hp (by omega)
      have h2 := h i hi hpos
      omega
    · have : i = 0 := by omega
      subst this
      exact le_refl _

theorem isMinHeap_head_le (front : Int × E) (rest : List (Int × E))
    (h : IsMinHeap (front :: rest)) (e : Int × E) (he : e ∈ front :: rest) :
    front.1 ≤ e.1 := by
  obtain ⟨i, hi, hget⟩ := List.getElem_of_mem he
  have := isMinHeap_root_le (front :: rest) h i hi
  unfold key at this
  rw [List.getElem?_eq_getElem hi, hget] at this
  simpa using this

theorem isMinHeap_nil : IsMinHeap ([] : List (Int × E)) := by
  intro i hi
  simp at hi

/-! ## Call sequences -/

theorem foldl_insert_perm (entries : List (Int × E)) (q : PriorityQueue E)
    (h : ∀ e ∈ entries, 0 ≤ e.1) :
    (entries.foldl (fun acc e => insert acc e.1 e.2) q).heap.Perm (q.heap ++ entries) := by
  induction entries generalizing q with
  | nil => simp
  | cons e es ih =>
    rw [List.foldl_cons]
    have he : 0 ≤ e.1 := h e (List.mem_cons_self _ _)
    have hes : ∀ x ∈ es, 0 ≤ x.1 := fun x hx => h x (List.mem_cons_of_mem _ hx)
    refine (ih (insert q e.1 e.2) hes).trans ?_
    have h1 := insert_perm q e.1 e.2 he
    have h2 : ((e.1, e.2) :: q.heap).Perm (q.heap ++ [e]) :=
      (List.perm_append_singleton _ _).symm
    have h3 := (h1.trans h2).append_right es
    simpa using h3

theorem foldl_insert_isMinHeap (entries : List (Int × E)) (q : PriorityQueue E)
    (hq : IsMinHeap q.heap) :
    IsMinHeap (entries.foldl (fun acc e => insert acc e.1 e.2) q).heap := by
  induction entries generalizing q with
  | nil => exact hq
  | cons e es ih =>
    rw [List.foldl_cons]
    exact ih _ (insert_isMinHeap q e.1 e.2 hq)

theorem drain_sorted_perm [Inhabited E] (n : Nat) (q : PriorityQueue E)
    (hn : q.heap.length = n) (hq : IsMinHeap q.heap) :
    (drain n q).Sorted (· ≤ ·) ∧ (drain n q).Perm (q.heap.map Prod.fst) := by
  induction n generalizing q with
  | zero =>
    have : q.heap = [] := List.length_eq_zero.mp hn
    simp [drain, this]
  | succ m ih =>
    cases hh : q.heap with
    | nil => rw [hh] at hn; simp at hn
    | cons front rest =>
      have hperm := remove_front_perm q front rest hh
      have hlen : (remove_front q).2.heap.length = m := by
        rw [hperm.length_eq]; rw [hh] at hn; simpa using hn
      obtain ⟨hs, hp⟩ := ih (remove_front q).2 hlen (remove_front_isMinHeap q hq)
      have hroot : (q.get_all_priorities)[0]?.toList = [front.1] := by
        simp [get_all_priorities, hh]
      have hp2 : (drain m (remove_front q).2).Perm (rest.map Prod.fst) :=
        hp.trans (hperm.map Prod.fst)
      simp only [drain, hroot, List.singleton_append, List.map_cons]
      refine ⟨List.sorted_cons.mpr ⟨?_, hs⟩, hp2.cons _⟩
      intro b hb
      have hb' : b ∈ rest.map Prod.fst := hp2.subset hb
      obtain ⟨e, he, rfl⟩ := List.mem_map.mp hb'
      rw [hh] at hq
      exact isMinHeap_head_le front rest hq e (List.mem_cons_of_mem _ he)

/-! ## Reads and the erase loop -/

theorem eraseLoop_fst (element : E) (heap : List (Int × E)) :
    (eraseLoop element heap).1 = heap.filter (fun e => decide (e.2 ≠ element)) := by
  induction heap with
  | nil => rfl
  | cons e rest ih =>
    by_cases h : e.2 = element
    · simp [eraseLoop, h, ih]
    · simp [eraseLoop, h, ih]

theorem eraseLoop_snd (element : E) (heap : List (Int × E)) :
    (eraseLoop element heap).2 = heap.any (fun e => decide (e.2 = element)) := by
  induction heap with
  | nil => rfl
  | cons e rest ih =>
    by_cases h : e.2 = element
    · simp [eraseLoop, h]
    · simp [eraseLoop, h, ih]

theorem get_priorityLoop_of_not_mem (element : E) (heap : List (Int × E))
    (h : ∀ e ∈ heap, e.2 ≠ element) : get_priorityLoop element heap = -1 := by
  induction heap with
  | nil => rfl
  | cons e rest ih =>
    have he : e.2 ≠ element := h e (List.mem_cons_self _ _)
    simp only [get_priorityLoop, if_neg he]
    exact ih (fun x hx => h x (List.mem_cons_of_mem _ hx))

theorem get_priorityLoop_mem (element : E) (heap : List (Int × E))
    (h : ∃ e ∈ heap, e.2 = element) :
    ∃ e ∈ heap, e.2 = element ∧ get_priorityLoop element heap = e.1 := by
  induction heap with
  | nil => simp at h
  | cons e rest ih =>
    by_cases he : e.2 = element
    · exact ⟨e, List.mem_cons_self _ _, he, by simp [get_priorityLoop, he]⟩
    · obtain ⟨x, hx, hxe⟩ := h
      have hx' : x ∈ rest := by
        rcases List.mem_cons.mp hx with rfl | hr
        · exact absurd hxe he
        · exact hr
      obtain ⟨y, hy, hye, hyp⟩ := ih ⟨x, hx', hxe⟩
      exact ⟨y, List.mem_cons_of_mem _ hy, hye, by simp [get_priorityLoop, he, hyp]⟩

theorem insert_nonNeg (q : PriorityQueue E) (priority : Int) (element : E)
    (hq : NonNeg q.heap) : NonNeg (insert q priority element).heap := by
  by_cases h : 0 ≤ priority
  · intro e he
    have := (insert_perm q priority element h).subset he
    rcases List.mem_cons.mp this with rfl | hm
    · exact h
    · exact hq e hm
  · rw [insert_of_neg q priority element (by omega)]
    exact hq

theorem insert_all_nonNeg (new_elements : List (Int × E)) (q : PriorityQueue E)
    (hq : NonNeg q.heap) : NonNeg (insert_all q new_elements).heap := by
  unfold insert_all
  induction new_elements generalizing q with
  | nil => exact hq
  | cons e es ih =>
    rw [List.foldl_cons]
    exact ih _ (insert_nonNeg q e.1 e.2 hq)

theorem remove_front_nonNeg [Inhabited E] (q : PriorityQueue E) (hq : NonNeg q.heap) :
    NonNeg (remove_front q).2.heap := by
  cases hh : q.heap with
  | nil => rw [remove_front_nil q hh, hh]; rw [hh] at hq; exact hq
  | cons front rest =>
    intro e he
    have := (remove_front_perm q front rest hh).subset he
    rw [hh] at hq
    exact hq e (List.mem_cons_of_mem _ this)

theorem change_priority_nonNeg (q : PriorityQueue E) (element : E) (new_priority : Int)
    (hq : NonNeg q.heap) : NonNeg (change_priority q element new_priority).heap := by
  have h1 : NonNeg (eraseLoop element q.heap).1 := by
    rw [eraseLoop_fst]
    intro e he
    exact hq e (List.mem_of_mem_filter he)
  unfold change_priority
  simp only
  split
  · exact insert_nonNeg _ _ _ h1
  · exact h1

theorem run_nonNeg [Inhabited E] (ops : List (Op E)) (q : PriorityQueue E)
    (hq : NonNeg q.heap) : NonNeg (run ops q).heap := by
  unfold run
  induction ops generalizing q with
  | nil => exact hq
  | cons op rest ih =>
    rw [List.foldl_cons]
    apply ih
    cases op with
    | insert priority element => exact insert_nonNeg q priority element hq
    | insert_all new_elements => exact insert_all_nonNeg new_elements q hq
    | remove_front => exact remove_front_nonNeg q hq
    | change_priority element new_priority =>
      exact change_priority_nonNeg q element new_priority hq

theorem contains_eq_true_iff (q : PriorityQueue E) (y : E) :
    q.contains y = true ↔ HasElem q.heap y := by
  simp [contains, HasElem]

theorem contains_eq_false_iff (q : PriorityQueue E) (y : E) :
    q.contains y = false ↔ ∀ e ∈ q.heap, e.2 ≠ y := by
  simp [contains]

theorem insert_hasElem (q : PriorityQueue E) (priority : Int) (element y : E)
    (h : HasElem (insert q priority element).heap y) : HasElem q.heap y ∨ element = y := by
  by_cases hp : 0 ≤ priority
  · obtain ⟨e, he, hey⟩ := h
    rcases List.mem_cons.mp ((insert_perm q priority element hp).subset he) with rfl | hm
    · exact Or.inr hey
    · exact Or.inl ⟨e, hm, hey⟩
  · rw [insert_of_neg q priority element (by omega)] at h
    exact Or.inl h

theorem insert_all_hasElem (new_elements : List (Int × E)) (q : PriorityQueue E) (y : E)
    (h : HasElem (insert_all q new_elements).heap y) :
    HasElem q.heap y ∨ new_elements.any (fun e => decide (e.2 = y)) = true := by
  unfold insert_all at h
  induction new_elements generalizing q with
  | nil => exact Or.inl h
  | cons e es ih =>
    rw [List.foldl_cons] at h
    rcases ih _ h with h1 | h1
    · rcases insert_hasElem q e.1 e.2 y h1 with h2 | h2
      · exact Or.inl h2
      · exact Or.inr (by simp [h2])
    · exact Or.inr (by simp only [List.any_cons, h1, Bool.or_true])

theorem apply_hasElem [Inhabited E] (op : Op E) (q : PriorityQueue E) (y : E)
    (h : HasElem (Op.apply q op).heap y) : HasElem q.heap y ∨ op.inserts y = true := by
  cases op with
  | insert priority element =>
    rcases insert_hasElem q priority element y h with h1 | h1
    · exact Or.inl h1
    · exact Or.inr (by simp [Op.inserts, h1])
  | insert_all new_elements =>
    rcases insert_all_hasElem new_elements q y h with h1 | h1
    · exact Or.inl h1
    · exact Or.inr h1
  | remove_front =>
    left
    simp only [Op.apply] at h
    cases hh : q.heap with
    | nil => rw [remove_front_nil q hh, hh] at h; exact h
    | cons front rest =>
      obtain ⟨e, he, hey⟩ := h
      exact ⟨e, List.mem_cons_of_mem _ ((remove_front_perm q front rest hh).subset he), hey⟩
  | change_priority element new_priority =>
    left
    simp only [Op.apply, change_priority] at h
    have hsub : ∀ e ∈ (eraseLoop element q.heap).1, e ∈ q.heap := by
      rw [eraseLoop_fst]
      intro e he
      exact List.mem_of_mem_filter he
    split at h
    · rename_i hfound
      rcases insert_hasElem _ new_priority element y h with ⟨e, he, hey⟩ | h1
      · exact ⟨e, hsub e he, hey⟩
      · rw [eraseLoop_snd] at hfound
        subst h1
        simpa [HasElem] using hfound
    · obtain ⟨e, he, hey⟩ := h
      exact ⟨e, hsub e he, hey⟩

theorem run_hasElem [Inhabited E] (ops : List (Op E)) (q : PriorityQueue E) (y : E)
    (h : HasElem (run ops q).heap y) :
    HasElem q.heap y ∨ ∃ op ∈ ops, op.inserts y = true := by
  unfold run at h
  induction ops generalizing q with
  | nil => exact Or.inl h
  | cons op rest ih =>
    rw [List.foldl_cons] at h
    rcases ih _ h with h1 | ⟨o, ho, hoy⟩
    · rcases apply_hasElem op q y h1 with h2 | h2
      · exact Or.inl h2
      · exact Or.inr ⟨op, List.mem_cons_self _ _, h2⟩
    · exact Or.inr ⟨o, List.mem_cons_of_mem _ ho, hoy⟩

theorem get_priorityLoop_of_index (element : E) (heap : List (Int × E)) (i : Nat) (e : Int × E)
    (hi : heap[i]? = some e) (he : e.2 = element)
    (hfirst : ∀ j, j < i → ∀ x, heap[j]? = some x → x.2 ≠ element) :
    get_priorityLoop element heap = e.1 := by
  induction heap generalizing i with
  | nil => simp at hi
  | cons y ys ih =>
    cases i with
    | zero =>
      simp only [List.getElem?_cons_zero, Option.some.injEq] at hi
      subst hi
      simp [get_priorityLoop, he]
    | succ n =>
      have hy : y.2 ≠ element := hfirst 0 (by omega) y (by simp)
      simp only [get_priorityLoop, if_neg hy]
      apply ih n
      · simpa using hi
      · intro j hj x hx
        exact hfirst (j + 1) (by omega) x (by simpa using hx)

/-! # The claims -/

/-- C1 (heap property after any call sequence) fails on the code: the calls
`insert(1, 0); insert(3, 1); insert(2, 2); change_priority(0, 5)` on an empty
`PriorityQueue<Nat>` leave the vector `[(3, 1), (2, 2), (5, 0)]`, whose index 1
holds priority 2 below its parent's priority 3.  The erase loop of
`change_priority` removes the root and the final `insert` only repairs the path
above the appended slot. -/
theorem C1_change_priority_breaks_min_heap :
    (run [Op.insert 1 0, Op.insert 3 1, Op.insert 2 2, Op.change_priority 0 5]
        (new : PriorityQueue Nat)).heap = [(3, 1), (2, 2), (5, 0)] ∧
    ¬ IsMinHeap (run [Op.insert 1 0, Op.insert 3 1, Op.insert 2 2, Op.change_priority 0 5]
        (new : PriorityQueue Nat)).heap := by
  decide

/-- C2: for every list of pairs with non-negative priorities, inserting them one
by one into an empty queue and then calling `remove_front()` `size()` times shows,
as the root priorities read before each removal, exactly the sorted list of the
inserted priorities. -/
theorem C2_drain_is_sorted_priorities [Inhabited E] (entries : List (Int × E))
    (h : ∀ e ∈ entries, 0 ≤ e.1) :
    drain (entries.foldl (fun acc e => insert acc e.1 e.2) new).size.toNat
        (entries.foldl (fun acc e => insert acc e.1 e.2) new)
      = (entries.map Prod.fst).insertionSort (· ≤ ·) := by
  have hperm := foldl_insert_perm entries (new : PriorityQueue E) h
  have hheap := foldl_insert_isMinHeap entries (new : PriorityQueue E) isMinHeap_nil
  obtain ⟨hs, hp⟩ := drain_sorted_perm
    (entries.foldl (fun acc e => insert acc e.1 e.2) new).size.toNat
    (entries.foldl (fun acc e => insert acc e.1 e.2) new) (by simp [size]) hheap
  have hp2 : (entries.foldl (fun acc e => insert acc e.1 e.2)
      (new : PriorityQueue E)).heap.Perm entries := by simpa [new] using hperm
  exact List.eq_of_perm_of_sorted
    ((hp.trans (hp2.map Prod.fst)).trans (List.perm_insertionSort _ _).symm)
    hs (List.sorted_insertionSort _ _)

/-- Witness of C2: priorities `[5, 1, 3, 2, 4]` come out as `1, 2, 3, 4, 5`. -/
theorem C2_drain_is_sorted_priorities_witness :
    (∀ e ∈ [((5 : Int), (50 : Nat)), (1, 10), (3, 30), (2, 20), (4, 40)], 0 ≤ e.1) ∧
    drain ([((5 : Int), (50 : Nat)), (1, 10), (3, 30), (2, 20), (4, 40)].foldl
          (fun acc e => insert acc e.1 e.2) new).size.toNat
        ([((5 : Int), (50 : Nat)), (1, 10), (3, 30), (2, 20), (4, 40)].foldl
          (fun acc e => insert acc e.1 e.2) new)
      = ([((5 : Int), (50 : Nat)), (1, 10), (3, 30), (2, 20), (4, 40)].map
          Prod.fst).insertionSort (· ≤ ·) ∧
    ([((5 : Int), (50 : Nat)), (1, 10), (3, 30), (2, 20), (4, 40)].map
          Prod.fst).insertionSort (· ≤ ·) = [1, 2, 3, 4, 5] :=
  ⟨by decide,
   C2_drain_is_sorted_priorities
     [((5 : Int), (50 : Nat)), (1, 10), (3, 30), (2, 20), (4, 40)] (by decide),
   by decide⟩

/-- C3: on a non-empty queue whose vector is a min-heap, `peek()` returns the
element of a stored pair whose priority is at most the priority of every stored
pair, and the queue is left as it was. -/
theorem C3_peek_is_minimum [Inhabited E] (q : PriorityQueue E)
    (hne : q.empty = false) (hq : IsMinHeap q.heap) :
    (∃ e ∈ q.heap, e.2 = (peek q).1 ∧ ∀ x ∈ q.heap, e.1 ≤ x.1) ∧ (peek q).2 = q := by
  cases hh : q.heap with
  | nil => simp [empty, hh] at hne
  | cons front rest =>
    have hp : peek q = (front.2, q) := by simp [peek, empty, hh]
    rw [hp]
    refine ⟨⟨front, List.mem_cons_self _ _, rfl, ?_⟩, rfl⟩
    intro x hx
    rw [hh] at hq
    exact isMinHeap_head_le front rest hq x hx

/-- Witness of C3: the heap `[(1, 10), (2, 20), (3, 30)]`. -/
theorem C3_peek_is_minimum_witness :
    (⟨[(1, 10), (2, 20), (3, 30)]⟩ : PriorityQueue Nat).empty = false ∧
    IsMinHeap (⟨[(1, 10), (2, 20), (3, 30)]⟩ : PriorityQueue Nat).heap ∧
    ((∃ e ∈ (⟨[(1, 10), (2, 20), (3, 30)]⟩ : PriorityQueue Nat).heap,
        e.2 = (peek (⟨[(1, 10), (2, 20), (3, 30)]⟩ : PriorityQueue Nat)).1 ∧
        ∀ x ∈ (⟨[(1, 10), (2, 20), (3, 30)]⟩ : PriorityQueue Nat).heap, e.1 ≤ x.1) ∧
      (peek (⟨[(1, 10), (2, 20), (3, 30)]⟩ : PriorityQueue Nat)).2
        = ⟨[(1, 10), (2, 20), (3, 30)]⟩) :=
  ⟨by decide, by decide,
   C3_peek_is_minimum ⟨[(1, 10), (2, 20), (3, 30)]⟩ (by decide) (by decide)⟩

/-- C4: on a non-empty queue `remove_front()` returns the element stored at the
root, the value `peek()` returns just before, and the multiset of stored pairs
afterwards is the multiset before with one occurrence of the root pair erased. -/
theorem C4_remove_front_removes_root [Inhabited E] (q : PriorityQueue E)
    (hne : q.empty = false) :
    ∃ root, q.heap.head? = some root ∧
      (remove_front q).1 = root.2 ∧
      (remove_front q).1 = (peek q).1 ∧
      Multiset.ofList (remove_front q).2.heap = (Multiset.ofList q.heap).erase root := by
  cases hh : q.heap with
  | nil => simp [empty, hh] at hne
  | cons front rest =>
    have hp : peek q = (front.2, q) := by simp [peek, empty, hh]
    have hperm := remove_front_perm q front rest hh
    refine ⟨front, rfl, ?_, ?_, ?_⟩
    · rw [remove_front_cons q front rest hh]
    · rw [remove_front_cons q front rest hh, hp]
    · rw [← Multiset.cons_coe, Multiset.erase_cons_head]
      exact Multiset.coe_eq_coe.mpr hperm

/-- Witness of C4: the queue `[(1, 10), (2, 20), (3, 30)]`. -/
theorem C4_remove_front_removes_root_witness :
    (⟨[(1, 10), (2, 20), (3, 30)]⟩ : PriorityQueue Nat).empty = false ∧
    ∃ root, (⟨[(1, 10), (2, 20), (3, 30)]⟩ : PriorityQueue Nat).heap.head? = some root ∧
      (remove_front (⟨[(1, 10), (2, 20), (3, 30)]⟩ : PriorityQueue Nat)).1 = root.2 ∧
      (remove_front (⟨[(1, 10), (2, 20), (3, 30)]⟩ : PriorityQueue Nat)).1
        = (peek (⟨[(1, 10), (2, 20), (3, 30)]⟩ : PriorityQueue Nat)).1 ∧
      Multiset.ofList (remove_front (⟨[(1, 10), (2, 20), (3, 30)]⟩ : PriorityQueue Nat)).2.heap
        = (Multiset.ofList
            (⟨[(1, 10), (2, 20), (3, 30)]⟩ : PriorityQueue Nat).heap).erase root :=
  ⟨by decide, C4_remove_front_removes_root ⟨[(1, 10), (2, 20), (3, 30)]⟩ (by decide)⟩

/-- C5: `insert(p, x)` with `p >= 0` makes `size()` the previous `size()` plus
one, and `remove_front()` makes `size()` the maximum of the previous `size()`
minus one and zero. -/
theorem C5_size_conservation [Inhabited E] (q : PriorityQueue E) (p : Int) (x : E) :
    (0 ≤ p → (insert q p x).size = q.size + 1) ∧
    (remove_front q).2.size = max (q.size - 1) 0 := by
  constructor
  · intro hp
    simp only [size]
    rw [(insert_perm q p x hp).length_eq]
    simp
  · simp only [size]
    cases hh : q.heap with
    | nil => rw [remove_front_nil q hh, hh]; simp
    | cons front rest =>
      rw [(remove_front_perm q front rest hh).length_eq]
      simp

/-- Witness of C5: inserting `(0, 7)` into `[(1, 10), (2, 20)]` and removing the
front of it. -/
theorem C5_size_conservation_witness :
    (0 : Int) ≤ 0 ∧
    (insert (⟨[(1, 10), (2, 20)]⟩ : PriorityQueue Nat) 0 7).size
      = (⟨[(1, 10), (2, 20)]⟩ : PriorityQueue Nat).size + 1 ∧
    (remove_front (⟨[(1, 10), (2, 20)]⟩ : PriorityQueue Nat)).2.size
      = max ((⟨[(1, 10), (2, 20)]⟩ : PriorityQueue Nat).size - 1) 0 :=
  ⟨by decide,
   (C5_size_conservation (⟨[(1, 10), (2, 20)]⟩ : PriorityQueue Nat) 0 7).1 (by decide),
   (C5_size_conservation (⟨[(1, 10), (2, 20)]⟩ : PriorityQueue Nat) 0 7).2⟩

/-- C6: `insert(p, x)` with `p < 0` changes nothing: the vector is the same, and
so are `size()`, `contains(x)`, `get_all_elements()` and
`get_all_priorities()`. -/
theorem C6_negative_insert_is_noop (q : PriorityQueue E) (x : E) (p : Int) (h : p < 0) :
    (insert q p x).heap = q.heap ∧
    (insert q p x).size = q.size ∧
    (insert q p x).contains x = q.contains x ∧
    (insert q p x).get_all_elements = q.get_all_elements ∧
    (insert q p x).get_all_priorities = q.get_all_priorities := by
  rw [insert_of_neg q p x h]
  exact ⟨rfl, rfl, rfl, rfl, rfl⟩

/-- Witness of C6: `insert(-1, 7)` on the queue `[(1, 10), (2, 20)]`. -/
theorem C6_negative_insert_is_noop_witness :
    (-1 : Int) < 0 ∧
    (insert (⟨[(1, 10), (2, 20)]⟩ : PriorityQueue Nat) (-1) 7).heap = [(1, 10), (2, 20)] ∧
    (insert (⟨[(1, 10), (2, 20)]⟩ : PriorityQueue Nat) (-1) 7).contains 7 = false :=
  ⟨by decide,
   (C6_negative_insert_is_noop (⟨[(1, 10), (2, 20)]⟩ : PriorityQueue Nat) 7 (-1)
     (by decide)).1,
   (C6_negative_insert_is_noop (⟨[(1, 10), (2, 20)]⟩ : PriorityQueue Nat) 7 (-1)
     (by decide)).2.2.1⟩

/-- C7: on the freshly constructed queue `size()` is 0 and `empty()` is true,
`peek()` and `remove_front()` both return `E()` and leave the queue empty; and on
every queue `empty()` is true exactly when `size()` is 0. -/
theorem C7_empty_queue_sentinels [Inhabited E] :
    (new : PriorityQueue E).size = 0 ∧
    (new : PriorityQueue E).empty = true ∧
    (peek (new : PriorityQueue E)).1 = default ∧
    (remove_front (new : PriorityQueue E)).1 = default ∧
    (peek (new : PriorityQueue E)).2.empty = true ∧
    (remove_front (new : PriorityQueue E)).2.empty = true ∧
    ∀ q : PriorityQueue E, q.empty = true ↔ q.size = 0 := by
  refine ⟨rfl, rfl, rfl, rfl, rfl, rfl, ?_⟩
  intro q
  simp [empty, size]

/-- C8: in every queue reached from the empty queue by `insert`, `insert_all`,
`remove_front` and `change_priority` calls all stored priorities are
non-negative, `get_priority(y)` is `-1` exactly when `contains(y)` is false, and
`get_priority(y)` is `-1` when no `insert` or `insert_all` call carried `y`. -/
theorem C8_sentinel_is_collision_free [Inhabited E] (ops : List (Op E)) :
    (∀ e ∈ (run ops (new : PriorityQueue E)).heap, 0 ≤ e.1) ∧
    (∀ y, get_priority (run ops (new : PriorityQueue E)) y = -1 ↔
      contains (run ops (new : PriorityQueue E)) y = false) ∧
    (∀ y, (∀ op ∈ ops, op.inserts y = false) →
      get_priority (run ops (new : PriorityQueue E)) y = -1) := by
  have hnn : NonNeg (run ops (new : PriorityQueue E)).heap :=
    run_nonNeg ops new (by intro e he; simp [new] at he)
  have hiff : ∀ y, get_priority (run ops (new : PriorityQueue E)) y = -1 ↔
      contains (run ops (new : PriorityQueue E)) y = false := by
    intro y
    constructor
    · intro hg
      by_contra hc
      have hc' : contains (run ops (new : PriorityQueue E)) y = true := by simpa using hc
      obtain ⟨e, he, _, hp⟩ := get_priorityLoop_mem y _ ((contains_eq_true_iff _ y).mp hc')
      have h0 := hnn e he
      unfold get_priority at hg
      omega
    · intro hc
      exact get_priorityLoop_of_not_mem y _ ((contains_eq_false_iff _ y).mp hc)
  refine ⟨hnn, hiff, ?_⟩
  intro y hy
  rw [hiff y, contains_eq_false_iff]
  intro e he hey
  rcases run_hasElem ops new y ⟨e, he, hey⟩ with ⟨x, hx, _⟩ | ⟨op, hop, hins⟩
  · simp [new] at hx
  · rw [hy op hop] at hins
    exact Bool.false_ne_true hins

/-- Witness of C8: after `insert(3, 1); insert(-4, 2); remove_front();
insert_all([(2, 5)]); change_priority(5, 0)` the element 9, which no call
inserted, has `get_priority(9) == -1`. -/
theorem C8_sentinel_is_collision_free_witness :
    (∀ op ∈ [Op.insert 3 1, Op.insert (-4) 2, Op.remove_front, Op.insert_all [(2, 5)],
        Op.change_priority 5 0], Op.inserts (9 : Nat) op = false) ∧
    get_priority (run [Op.insert 3 1, Op.insert (-4) 2, Op.remove_front,
        Op.insert_all [(2, 5)], Op.change_priority 5 0] (new : PriorityQueue Nat)) 9 = -1 :=
  ⟨by decide,
   (C8_sentinel_is_collision_free [Op.insert 3 1, Op.insert (-4) 2, Op.remove_front,
        Op.insert_all [(2, 5)], Op.change_priority 5 0]).2.2 9 (by decide)⟩

/-- C9 (`get_priority` returns the lowest priority among the matching pairs)
fails on the code: after `insert(0, 7); insert(5, 9); insert(1, 9)` the vector is
`[(0, 7), (5, 9), (1, 9)]` and `get_priority(9)` is 5, the priority of the first
match of the scan, although the pair `(1, 9)` is stored. -/
theorem C9_get_priority_not_lowest :
    (run [Op.insert 0 7, Op.insert 5 9, Op.insert 1 9] (new : PriorityQueue Nat)).heap
      = [(0, 7), (5, 9), (1, 9)] ∧
    get_priority (run [Op.insert 0 7, Op.insert 5 9, Op.insert 1 9]
      (new : PriorityQueue Nat)) 9 = 5 ∧
    ((1 : Int), (9 : Nat)) ∈ (run [Op.insert 0 7, Op.insert 5 9, Op.insert 1 9]
      (new : PriorityQueue Nat)).heap := by
  decide

/-- C10: `get_priority(x)` is the priority of the first pair, in the order of
`get_all_elements()`, whose element equals `x`: when `i` is the least index with
`get_all_elements()[i] == x`, the result is `get_all_priorities()[i]`; when no
index holds `x`, the result is `-1`. -/
theorem C10_get_priority_first_match (q : PriorityQueue E) (x : E) :
    (∀ i : Nat, q.get_all_elements[i]? = some x →
      (∀ j : Nat, j < i → q.get_all_elements[j]? ≠ some x) →
      q.get_all_priorities[i]? = some (q.get_priority x)) ∧
    ((∀ i : Nat, i < q.get_all_elements.length → q.get_all_elements[i]? ≠ some x) →
      q.get_priority x = -1) := by
  constructor
  · intro i hi hfirst
    simp only [get_all_elements, List.getElem?_map, Option.map_eq_some'] at hi
    obtain ⟨e, hie, hex⟩ := hi
    have := get_priorityLoop_of_index x q.heap i e hie hex (by
      intro j hj y hy hyx
      apply hfirst j hj
      simp [get_all_elements, hy, hyx])
    simp [get_all_priorities, get_priority, hie, this]
  · intro hnone
    apply get_priorityLoop_of_not_mem
    intro e he hex
    obtain ⟨i, hi, hget⟩ := List.getElem_of_mem he
    apply hnone i (by simpa [get_all_elements] using hi)
    simp [get_all_elements, List.getElem?_eq_getElem hi, hget, hex]

/-- Witness of C10: in `[(0, 7), (5, 9), (1, 9)]` the first index holding 9 is 1,
and no index holds 4. -/
theorem C10_get_priority_first_match_witness :
    (⟨[(0, 7), (5, 9), (1, 9)]⟩ : PriorityQueue Nat).get_all_elements[1]? = some 9 ∧
    (∀ j : Nat, j < 1 →
      (⟨[(0, 7), (5, 9), (1, 9)]⟩ : PriorityQueue Nat).get_all_elements[j]? ≠ some 9) ∧
    (⟨[(0, 7), (5, 9), (1, 9)]⟩ : PriorityQueue Nat).get_all_priorities[1]?
      = some ((⟨[(0, 7), (5, 9), (1, 9)]⟩ : PriorityQueue Nat).get_priority 9) ∧
    (⟨[(0, 7), (5, 9), (1, 9)]⟩ : PriorityQueue Nat).get_priority 4 = -1 :=
  ⟨by decide, by decide,
   (C10_get_priority_first_match ⟨[(0, 7), (5, 9), (1, 9)]⟩ 9).1 1 (by decide) (by decide),
   (C10_get_priority_first_match ⟨[(0, 7), (5, 9), (1, 9)]⟩ 4).2 (by decide)⟩

/-! ## Further lemmas on the up-heap and on `change_priority` -/

theorem bubbleUpAux_to_root (fuel : Nat) (heap : List (Int × E)) (k : Nat) (c : Int × E)
    (hf : k < fuel) (hk : heap[k]? = some c)
    (hmin : ∀ j, j < k → ∀ e, heap[j]? = some e → c.1 < e.1) :
    (bubbleUpAux fuel heap k)[0]? = some c := by
  induction fuel generalizing heap k with
  | zero => omega
  | succ n ih =>
    simp only [bubbleUpAux]
    split
    · rename_i h0
      subst h0
      exact hk
    · rename_i h0
      have hp : getParent k < k := getParent_lt (by omega)
      have hkl : k < heap.length := by
        by_contra hc
        have : heap[k]? = none := List.getElem?_eq_none_iff.mpr (by omega)
        rw [this] at hk
        exact Option.noConfusion hk
      have hpl : getParent k < heap.length := by omega
      have hlt : ltAt heap k (getParent k) = true := by
        have h1 := hmin (getParent k) hp heap[getParent k] (List.getElem?_eq_getElem hpl)
        simp only [ltAt, hk, List.getElem?_eq_getElem hpl, pairLt, Bool.or_eq_true,
          decide_eq_true_eq]
        exact Or.inl h1
      rw [if_pos hlt]
      apply ih _ _ (by omega)
      · rw [getElem?_swap_right hkl hpl, hk]
      · intro j hj e he
        rw [getElem?_swap_other (by omega) (by omega)] at he
        exact hmin j (by omega) e he

theorem change_priority_of_found (q : PriorityQueue E) (element : E) (new_priority : Int)
    (h : q.contains element = true) :
    change_priority q element new_priority
      = insert ⟨q.heap.filter (fun e => decide (e.2 ≠ element))⟩ new_priority element := by
  have h2 : (eraseLoop element q.heap).2 = true := by
    rw [eraseLoop_snd]; exact h
  simp only [change_priority, h2, if_true, eraseLoop_fst]

theorem change_priority_of_not_found (q : PriorityQueue E) (element : E) (new_priority : Int)
    (h : q.contains element = false) : change_priority q element new_priority = q := by
  have h2 : (eraseLoop element q.heap).2 = false := by
    rw [eraseLoop_snd]; exact h
  have h3 : q.heap.filter (fun e => decide (e.2 ≠ element)) = q.heap := by
    rw [List.filter_eq_self]
    intro e he
    have := (contains_eq_false_iff q element).mp h e he
    simpa using this
  simp only [change_priority, h2, eraseLoop_fst, h3]
  rfl

theorem insert_all_eq_insertOneByOne (q : PriorityQueue E) (new_elements : List (Int × E)) :
    insert_all q new_elements = insertOneByOne q new_elements := by
  unfold insert_all
  induction new_elements generalizing q with
  | nil => rfl
  | cons e es ih =>
    rw [List.foldl_cons, insertOneByOne]
    exact ih _

theorem insert_all_perm (q : PriorityQueue E) (new_elements : List (Int × E)) :
    (insert_all q new_elements).heap.Perm
      (q.heap ++ new_elements.filter (fun e => decide (0 ≤ e.1))) := by
  unfold insert_all
  induction new_elements generalizing q with
  | nil => simp
  | cons e es ih =>
    rw [List.foldl_cons]
    refine (ih (insert q e.1 e.2)).trans ?_
    by_cases he : 0 ≤ e.1
    · have h1 := insert_perm q e.1 e.2 he
      have h2 : ((e.1, e.2) :: q.heap).Perm (q.heap ++ [e]) :=
        (List.perm_append_singleton _ _).symm
      have h3 := (h1.trans h2).append_right (es.filter (fun e => decide (0 ≤ e.1)))
      simpa [List.filter_cons, he] using h3
    · rw [insert_of_neg q e.1 e.2 (by omega)]
      simp [List.filter_cons, he]

/-! # The claims, continued -/

/-- C11: `get_all_elements()` and `get_all_priorities()` both have length
`size()`, and at every index the two hold the components of the pair that the
vector holds there, so that zipping them gives back the vector. -/
theorem C11_parallel_accessors (q : PriorityQueue E) :
    (q.get_all_elements.length : Int) = q.size ∧
    (q.get_all_priorities.length : Int) = q.size ∧
    (∀ i : Nat, q.get_all_priorities[i]? = q.heap[i]?.map Prod.fst ∧
      q.get_all_elements[i]? = q.heap[i]?.map Prod.snd) ∧
    List.zip q.get_all_priorities q.get_all_elements = q.heap := by
  refine ⟨by simp [get_all_elements, size], by simp [get_all_priorities, size], ?_, ?_⟩
  · intro i
    simp [get_all_priorities, get_all_elements]
  · simp only [get_all_priorities, get_all_elements]
    induction q.heap with
    | nil => rfl
    | cons e es ih => simp [ih]

/-- C12: when the queue contains `x` and `p >= 0` is strictly smaller than the
priority of every pair whose element differs from `x`, `change_priority(x, p)`
puts `(p, x)` at the root: `peek()` and the next `remove_front()` return `x`. -/
theorem C12_change_priority_new_minimum [Inhabited E] (q : PriorityQueue E) (x : E) (p : Int)
    (hc : q.contains x = true) (hp : 0 ≤ p)
    (hmin : ∀ e ∈ q.heap, e.2 ≠ x → p < e.1) :
    (change_priority q x p).heap.head? = some (p, x) ∧
    (peek (change_priority q x p)).1 = x ∧
    (remove_front (change_priority q x p)).1 = x := by
  have hroot : (change_priority q x p).heap[0]? = some (p, x) := by
    rw [change_priority_of_found q x p hc, insert_heap_of_nonneg _ _ _ hp]
    apply bubbleUpAux_to_root _ _ _ _ (Nat.lt_succ_self _)
    · simp
    · intro j hj e he
      simp only at hj
      rw [List.getElem?_append_left hj] at he
      have hmem : e ∈ q.heap.filter (fun e => decide (e.2 ≠ x)) := List.getElem?_mem he
      have h1 := List.mem_filter.mp hmem
      exact hmin e h1.1 (by simpa using h1.2)
  cases hh : (change_priority q x p).heap with
  | nil => rw [hh] at hroot; simp at hroot
  | cons front rest =>
    rw [hh] at hroot
    simp only [List.getElem?_cons_zero, Option.some.injEq] at hroot
    subst hroot
    refine ⟨rfl, ?_, ?_⟩
    · simp [peek, empty, hh]
    · rw [remove_front_cons _ _ rest hh]

/-- Witness of C12: `insert(10, 7); change_priority(7, 1); remove_front()`
returns 7. -/
theorem C12_change_priority_new_minimum_witness :
    (insert (new : PriorityQueue Nat) 10 7).contains 7 = true ∧
    (0 : Int) ≤ 1 ∧
    (∀ e ∈ (insert (new : PriorityQueue Nat) 10 7).heap, e.2 ≠ 7 → (1 : Int) < e.1) ∧
    (remove_front (change_priority (insert (new : PriorityQueue Nat) 10 7) 7 1)).1 = 7 :=
  ⟨by decide, by decide, by decide,
   (C12_change_priority_new_minimum (insert (new : PriorityQueue Nat) 10 7) 7 1
     (by decide) (by decide) (by decide)).2.2⟩

/-- C13: with `p >= 0`, when `k >= 1` pairs carry the element `x`,
`change_priority(x, p)` leaves exactly one pair carrying `x`, namely `(p, x)`,
keeps the multiset of the pairs carrying another element, and makes `size()` the
previous `size() - k + 1`; when no pair carries `x` the vector is unchanged. -/
theorem C13_change_priority_collapses (q : PriorityQueue E) (x : E) (p : Int) (hp : 0 ≤ p) :
    (1 ≤ q.heap.countP (fun e => decide (e.2 = x)) →
      (change_priority q x p).heap.filter (fun e => decide (e.2 = x)) = [(p, x)] ∧
      Multiset.ofList ((change_priority q x p).heap.filter (fun e => decide (e.2 ≠ x)))
        = Multiset.ofList (q.heap.filter (fun e => decide (e.2 ≠ x))) ∧
      (change_priority q x p).size
        = q.size - (q.heap.countP (fun e => decide (e.2 = x)) : Nat) + 1) ∧
    (q.heap.countP (fun e => decide (e.2 = x)) = 0 →
      (change_priority q x p).heap = q.heap) := by
  constructor
  · intro hk
    have hc : q.contains x = true := by
      rw [contains, List.any_eq_true]
      obtain ⟨e, he, hex⟩ := List.countP_pos_iff.mp hk
      exact ⟨e, he, hex⟩
    rw [change_priority_of_found q x p hc]
    have hperm := insert_perm ⟨q.heap.filter (fun e => decide (e.2 ≠ x))⟩ p x hp
    simp only at hperm
    refine ⟨?_, ?_, ?_⟩
    · have h1 := hperm.filter (fun e => decide (e.2 = x))
      have h2 : ((p, x) :: q.heap.filter (fun e => decide (e.2 ≠ x))).filter
          (fun e => decide (e.2 = x)) = [(p, x)] := by
        simp [List.filter_cons, List.filter_filter]
      rw [h2] at h1
      exact List.perm_singleton.mp h1
    · have h1 := hperm.filter (fun e => decide (e.2 ≠ x))
      have h2 : ((p, x) :: q.heap.filter (fun e => decide (e.2 ≠ x))).filter
          (fun e => decide (e.2 ≠ x)) = q.heap.filter (fun e => decide (e.2 ≠ x)) := by
        simp [List.filter_cons, List.filter_filter]
      rw [h2] at h1
      exact Multiset.coe_eq_coe.mpr h1
    · have h1 := hperm.length_eq
      have h2 := List.length_eq_countP_add_countP (fun e : Int × E => decide (e.2 = x)) q.heap
      have h3 : q.heap.countP (fun e => decide ¬ decide (e.2 = x) = true)
          = (q.heap.filter (fun e => decide (e.2 ≠ x))).length := by
        rw [List.countP_eq_length_filter]
        congr 1
        apply List.filter_congr
        intro e _
        simp
      simp only [size, h1, List.length_cons]
      omega
  · intro hk
    have hc : q.contains x = false := by
      rw [contains_eq_false_iff]
      intro e he hex
      have := List.countP_eq_zero.mp hk e he
      simp [hex] at this
    rw [change_priority_of_not_found q x p hc]

/-- Witness of C13: in `[(1, 7), (2, 8), (3, 7)]` two pairs carry 7, and no pair
carries 9. -/
theorem C13_change_priority_collapses_witness :
    (0 : Int) ≤ 5 ∧
    1 ≤ (⟨[(1, 7), (2, 8), (3, 7)]⟩ : PriorityQueue Nat).heap.countP
      (fun e => decide (e.2 = 7)) ∧
    (change_priority (⟨[(1, 7), (2, 8), (3, 7)]⟩ : PriorityQueue Nat) 7 5).heap.filter
      (fun e => decide (e.2 = 7)) = [(5, 7)] ∧
    (⟨[(1, 7), (2, 8), (3, 7)]⟩ : PriorityQueue Nat).heap.countP
      (fun e => decide (e.2 = 9)) = 0 ∧
    (change_priority (⟨[(1, 7), (2, 8), (3, 7)]⟩ : PriorityQueue Nat) 9 5).heap
      = (⟨[(1, 7), (2, 8), (3, 7)]⟩ : PriorityQueue Nat).heap :=
  ⟨by decide, by decide,
   ((C13_change_priority_collapses ⟨[(1, 7), (2, 8), (3, 7)]⟩ 7 5 (by decide)).1
     (by decide)).1,
   by decide,
   (C13_change_priority_collapses ⟨[(1, 7), (2, 8), (3, 7)]⟩ 9 5 (by decide)).2
     (by decide)⟩

/-- C14: `insert_all(list)` leaves the queue in the state reached by calling
`insert(priority, element)` once per list entry from first to last; the
resulting multiset of pairs is the old one plus the list entries whose priority
is not negative. -/
theorem C14_insert_all_is_repeated_insert (q : PriorityQueue E)
    (new_elements : List (Int × E)) :
    insert_all q new_elements = insertOneByOne q new_elements ∧
    Multiset.ofList (insert_all q new_elements).heap
      = Multiset.ofList (insertOneByOne q new_elements).heap ∧
    Multiset.ofList (insert_all q new_elements).heap
      = Multiset.ofList q.heap
        + Multiset.ofList (new_elements.filter (fun e => decide (0 ≤ e.1))) := by
  refine ⟨insert_all_eq_insertOneByOne q new_elements, ?_, ?_⟩
  · rw [insert_all_eq_insertOneByOne]
  · rw [Multiset.coe_add]
    exact Multiset.coe_eq_coe.mpr (insert_all_perm q new_elements)

/-- C15: on a queue whose vector is a min-heap, `insert(p, x)` with `p >= 0`
leaves a vector that is again a min-heap and whose multiset of pairs is the old
one plus the pair `(p, x)`. -/
theorem C15_insert_preserves_min_heap (q : PriorityQueue E) (x : E) (p : Int)
    (hq : IsMinHeap q.heap) (hp : 0 ≤ p) :
    IsMinHeap (insert q p x).heap ∧
    Multiset.ofList (insert q p x).heap = (p, x) ::ₘ Multiset.ofList q.heap := by
  refine ⟨insert_isMinHeap q p x hq, ?_⟩
  rw [Multiset.cons_coe]
  exact Multiset.coe_eq_coe.mpr (insert_perm q p x hp)

/-- Witness of C15: inserting `(0, 9)` into the heap `[(1, 7), (2, 8), (3, 6)]`. -/
theorem C15_insert_preserves_min_heap_witness :
    IsMinHeap (⟨[(1, 7), (2, 8), (3, 6)]⟩ : PriorityQueue Nat).heap ∧
    (0 : Int) ≤ 0 ∧
    IsMinHeap (insert (⟨[(1, 7), (2, 8), (3, 6)]⟩ : PriorityQueue Nat) 0 9).heap ∧
    Multiset.ofList (insert (⟨[(1, 7), (2, 8), (3, 6)]⟩ : PriorityQueue Nat) 0 9).heap
      = (0, 9) ::ₘ Multiset.ofList (⟨[(1, 7), (2, 8), (3, 6)]⟩ : PriorityQueue Nat).heap :=
  ⟨by decide, by decide,
   C15_insert_preserves_min_heap ⟨[(1, 7), (2, 8), (3, 6)]⟩ 9 0 (by decide) (by decide)⟩

/-- C16: on a queue whose vector is a min-heap, the vector left by
`remove_front()` is again a min-heap, whatever the size of the queue. -/
theorem C16_remove_front_preserves_min_heap [Inhabited E] (q : PriorityQueue E)
    (hq : IsMinHeap q.heap) : IsMinHeap (remove_front q).2.heap :=
  remove_front_isMinHeap q hq

/-- Witness of C16: queues of size 0, 1, 2 and 5. -/
theorem C16_remove_front_preserves_min_heap_witness :
    (IsMinHeap (new : PriorityQueue Nat).heap ∧
      IsMinHeap (remove_front (new : PriorityQueue Nat)).2.heap) ∧
    (IsMinHeap (⟨[(4, 1)]⟩ : PriorityQueue Nat).heap ∧
      IsMinHeap (remove_front (⟨[(4, 1)]⟩ : PriorityQueue Nat)).2.heap) ∧
    (IsMinHeap (⟨[(4, 1), (6, 2)]⟩ : PriorityQueue Nat).heap ∧
      IsMinHeap (remove_front (⟨[(4, 1), (6, 2)]⟩ : PriorityQueue Nat)).2.heap) ∧
    (IsMinHeap (⟨[(1, 1), (2, 2), (6, 3), (3, 4), (4, 5)]⟩ : PriorityQueue Nat).heap ∧
      IsMinHeap (remove_front
        (⟨[(1, 1), (2, 2), (6, 3), (3, 4), (4, 5)]⟩ : PriorityQueue Nat)).2.heap) :=
  ⟨⟨by decide, C16_remove_front_preserves_min_heap new (by decide)⟩,
   ⟨by decide, C16_remove_front_preserves_min_heap ⟨[(4, 1)]⟩ (by decide)⟩,
   ⟨by decide, C16_remove_front_preserves_min_heap ⟨[(4, 1), (6, 2)]⟩ (by decide)⟩,
   ⟨by decide, C16_remove_front_preserves_min_heap
     ⟨[(1, 1), (2, 2), (6, 3), (3, 4), (4, 5)]⟩ (by decide)⟩⟩

/-- C17 as stated (a parent of equal priority is never passed, whatever the
elements are) fails on the code: in the queue `[(1, 5)]` the parent of the
appended slot has priority 1, and `insert(1, 3)` still swaps, because `(1, 3)`
is smaller than `(1, 5)` as a pair; the vector becomes `[(1, 3), (1, 5)]`. -/
theorem C17_equal_priority_may_swap :
    key (⟨[(1, 5)]⟩ : PriorityQueue Nat).heap
        (getParent (⟨[(1, 5)]⟩ : PriorityQueue Nat).heap.length) = 1 ∧
    (insert (⟨[(1, 5)]⟩ : PriorityQueue Nat) 1 3).heap = [(1, 3), (1, 5)] ∧
    (insert (⟨[(1, 5)]⟩ : PriorityQueue Nat) 1 3).heap
      ≠ (⟨[(1, 5)]⟩ : PriorityQueue Nat).heap ++ [(1, 3)] := by
  decide

/-- C17, amended: `insert(p, x)` compares whole pairs with `std::pair`'s
`operator<`.  When the parent of the appended slot has priority equal to `p` and
`x` is not smaller than the parent's element, the new pair stays at the last
position and no swap occurs; and whenever the new pair does not stay there, the
parent's priority is strictly greater than `p`, or it is equal to `p` and `x` is
smaller than the parent's element. -/
theorem C17_insert_stays_below_equal_parent (q : PriorityQueue E) (x : E) (p : Int)
    (par : Int × E) (hp : 0 ≤ p) (hpar : q.heap[getParent q.heap.length]? = some par) :
    (par.1 = p → ¬ x < par.2 → (insert q p x).heap = q.heap ++ [(p, x)]) ∧
    ((insert q p x).heap ≠ q.heap ++ [(p, x)] → p < par.1 ∨ (par.1 = p ∧ x < par.2)) := by
  have hlen : 0 < q.heap.length := by
    by_contra hc
    have h0 : q.heap.length = 0 := by omega
    have : q.heap[getParent q.heap.length]? = none :=
      List.getElem?_eq_none_iff.mpr (by rw [h0]; exact Nat.zero_le _)
    rw [this] at hpar
    exact Option.noConfusion hpar
  have hpl : getParent q.heap.length < q.heap.length := getParent_lt hlen
  have hstay : pairLt (p, x) par = false → (insert q p x).heap = q.heap ++ [(p, x)] := by
    intro hf
    rw [insert_heap_of_nonneg q p x hp]
    have hne : ¬ q.heap.length = 0 := by omega
    have hlt : ltAt (q.heap ++ [(p, x)]) q.heap.length (getParent q.heap.length) = false := by
      simp only [ltAt, List.getElem?_append_left hpl, hpar]
      simpa using hf
    simp only [bubbleUp, bubbleUpAux, if_neg hne, hlt]
    rfl
  constructor
  · intro heq hnlt
    apply hstay
    simp only [pairLt, Bool.or_eq_false_iff, Bool.and_eq_false_imp, decide_eq_false_iff_not,
      Bool.not_eq_true', decide_eq_true_eq]
    exact ⟨by omega, fun _ => hnlt⟩
  · intro hmoved
    by_contra hc
    apply hmoved
    apply hstay
    simp only [not_or, not_and] at hc
    simp only [pairLt, Bool.or_eq_false_iff, Bool.and_eq_false_imp, decide_eq_false_iff_not,
      Bool.not_eq_true', decide_eq_true_eq]
    refine ⟨hc.1, fun h => hc.2 (by omega)⟩

/-- Witness of the amended C17: `insert(1, 5)` into `[(1, 3)]` stays at the end,
and `insert(1, 3)` into `[(1, 5)]`, which moves, has `3 < 5`. -/
theorem C17_insert_stays_below_equal_parent_witness :
    ((0 : Int) ≤ 1 ∧
      (⟨[(1, 3)]⟩ : PriorityQueue Nat).heap[
        getParent (⟨[(1, 3)]⟩ : PriorityQueue Nat).heap.length]? = some (1, 3) ∧
      ¬ (5 : Nat) < 3 ∧
      (insert (⟨[(1, 3)]⟩ : PriorityQueue Nat) 1 5).heap = [(1, 3)] ++ [(1, 5)]) ∧
    ((insert (⟨[(1, 5)]⟩ : PriorityQueue Nat) 1 3).heap ≠ [(1, 5)] ++ [(1, 3)] ∧
      ((1 : Int) < 1 ∨ ((1 : Int) = 1 ∧ (3 : Nat) < 5))) :=
  ⟨⟨by decide, by decide, by decide,
    (C17_insert_stays_below_equal_parent ⟨[(1, 3)]⟩ 5 1 (1, 3) (by decide) (by decide)).1
      rfl (by decide)⟩,
   ⟨by decide,
    (C17_insert_stays_below_equal_parent ⟨[(1, 5)]⟩ 3 1 (1, 5) (by decide) (by decide)).2
      (by decide)⟩⟩

/-- C19: when the queue contains `x` and `p < 0`, `change_priority(x, p)` erases
every pair carrying `x` and inserts nothing: the vector is the old one without
those pairs, `contains(x)` is false, `get_priority(x)` is `-1` and `size()` has
dropped by the number of pairs that carried `x`. -/
theorem C19_change_priority_negative_erases (q : PriorityQueue E) (x : E) (p : Int)
    (hc : q.contains x = true) (hp : p < 0) :
    (change_priority q x p).heap = q.heap.filter (fun e => decide (e.2 ≠ x)) ∧
    (change_priority q x p).contains x = false ∧
    (change_priority q x p).get_priority x = -1 ∧
    (change_priority q x p).size
      = q.size - (q.heap.countP (fun e => decide (e.2 = x)) : Nat) := by
  have hheap : (change_priority q x p).heap = q.heap.filter (fun e => decide (e.2 ≠ x)) := by
    rw [change_priority_of_found q x p hc, insert_of_neg _ _ _ hp]
  have hnone : ∀ e ∈ (change_priority q x p).heap, e.2 ≠ x := by
    intro e he
    rw [hheap] at he
    simpa using (List.mem_filter.mp he).2
  refine ⟨hheap, (contains_eq_false_iff _ x).mpr hnone,
    get_priorityLoop_of_not_mem x _ hnone, ?_⟩
  have h2 := List.length_eq_countP_add_countP (fun e : Int × E => decide (e.2 = x)) q.heap
  have h3 : q.heap.countP (fun e => decide ¬ decide (e.2 = x) = true)
      = (q.heap.filter (fun e => decide (e.2 ≠ x))).length := by
    rw [List.countP_eq_length_filter]
    congr 1
    apply List.filter_congr
    intro e _
    simp
  simp only [size, hheap]
  omega

/-- Witness of C19: `change_priority(7, -2)` on `[(1, 7), (2, 8), (3, 7)]`. -/
theorem C19_change_priority_negative_erases_witness :
    (⟨[(1, 7), (2, 8), (3, 7)]⟩ : PriorityQueue Nat).contains 7 = true ∧
    (-2 : Int) < 0 ∧
    (change_priority (⟨[(1, 7), (2, 8), (3, 7)]⟩ : PriorityQueue Nat) 7 (-2)).heap
      = [(2, 8)] ∧
    (change_priority (⟨[(1, 7), (2, 8), (3, 7)]⟩ : PriorityQueue Nat) 7 (-2)).get_priority 7
      = -1 :=
  ⟨by decide, by decide,
   (C19_change_priority_negative_erases ⟨[(1, 7), (2, 8), (3, 7)]⟩ 7 (-2)
     (by decide) (by decide)).1,
   (C19_change_priority_negative_erases ⟨[(1, 7), (2, 8), (3, 7)]⟩ 7 (-2)
     (by decide) (by decide)).2.2.1⟩

/-! ## Checked runs agree with the model inside the 32-bit range -/

theorem wrapInt_of_range (x : Int) (h1 : -2147483648 ≤ x) (h2 : x < 2147483648) :
    wrapInt x = x := by
  unfold wrapInt; omega

theorem getParentInt_cast (child : Nat) (h0 : 0 < child) (h : child < 2147483648) :
    getParentInt (child : Int) = ((getParent child : Nat) : Int) := by
  have h1 : wrapInt ((child : Int) - 1) = (child : Int) - 1 :=
    wrapInt_of_range _ (by omega) (by omega)
  have h2 : Int.tdiv ((child : Int) - 1) 2 = ((child : Int) - 1) / 2 :=
    Int.tdiv_eq_ediv (by omega) (by omega)
  unfold getParentInt getParent
  rw [h1, h2, wrapInt_of_range _ (by omega) (by omega)]
  omega

theorem getLeftChildInt_cast (parent : Nat) (h : parent ≤ 1073741822) :
    getLeftChildInt (parent : Int) = ((getLeftChild parent : Nat) : Int) := by
  have h1 : wrapInt (2 * (parent : Int)) = 2 * (parent : Int) :=
    wrapInt_of_range _ (by omega) (by omega)
  unfold getLeftChildInt getLeftChild
  rw [h1, wrapInt_of_range _ (by omega) (by omega)]
  omega

theorem getRightChildInt_cast (parent : Nat) (h : parent ≤ 1073741822) :
    getRightChildInt (parent : Int) = ((getRightChild parent : Nat) : Int) := by
  have h1 : wrapInt (2 * (parent : Int)) = 2 * (parent : Int) :=
    wrapInt_of_range _ (by omega) (by omega)
  unfold getRightChildInt getRightChild
  rw [h1, wrapInt_of_range _ (by omega) (by omega)]
  omega

theorem readAt_cast (heap : List (Int × E)) (i : Nat) (h : i < heap.length) :
    readAt heap (i : Int) = Except.ok heap[i] := by
  simp [readAt, List.getElem?_eq_getElem h]

theorem guardedLt_cast (heap : List (Int × E)) (b : Bool) (i j : Nat)
    (hi : b = true → i < heap.length) (hj : b = true → j < heap.length) :
    guardedLt heap b (i : Int) (j : Int) = Except.ok (b && ltAt heap i j) := by
  cases b with
  | false => simp [guardedLt]
  | true =>
    have h1 := hi rfl
    have h2 := hj rfl
    simp [guardedLt, readAt_cast heap i h1, readAt_cast heap j h2, ltAt,
      List.getElem?_eq_getElem h1, List.getElem?_eq_getElem h2]

theorem bubbleUpChecked_eq (fuel : Nat) (heap : List (Int × E)) (child : Nat)
    (hf : child < fuel) (hc : child < heap.length) (h32 : child < 2147483648) :
    bubbleUpChecked fuel heap (child : Int) = Except.ok (bubbleUpAux fuel heap child) := by
  induction fuel generalizing heap child with
  | zero => omega
  | succ n ih =>
    simp only [bubbleUpChecked, bubbleUpAux]
    by_cases h0 : child = 0
    · subst h0; simp
    · have hp : getParent child < child := getParent_lt (by omega)
      have hne : ¬ (child : Int) = 0 := by omega
      rw [if_neg hne, if_neg h0, getParentInt_cast child (by omega) h32,
        guardedLt_cast heap true child (getParent child) (fun _ => hc) (fun _ => by omega)]
      simp only [Bool.true_and, Int.toNat_ofNat]
      cases hlt : ltAt heap child (getParent child) with
      | true =>
        simp only [if_true]
        exact ih _ _ (by omega) (by simp only [length_swap]; omega) (by omega)
      | false => simp

theorem minIndexChecked_cast (heap : List (Int × E)) (parent : Nat)
    (hlen : heap.length ≤ 1073741823) (hpar : parent ≤ 1073741822) :
    minIndexChecked heap (parent : Int)
      = Except.ok ((minIndexOf heap parent : Nat) : Int) := by
  have hw : wrapInt (heap.length : Int) = (heap.length : Int) :=
    wrapInt_of_range _ (by omega) (by omega)
  have hL : (decide (((getLeftChild parent : Nat) : Int) < (heap.length : Int)))
      = decide (getLeftChild parent < heap.length) := by
    simp
  have hR : (decide (((getRightChild parent : Nat) : Int) < (heap.length : Int)))
      = decide (getRightChild parent < heap.length) := by
    simp
  unfold minIndexChecked
  simp only
  rw [hw, getLeftChildInt_cast parent hpar, getRightChildInt_cast parent hpar, hL, hR]
  rw [guardedLt_cast heap _ (getLeftChild parent) parent
    (fun h => by simpa using h)
    (fun h => by
      have : getLeftChild parent < heap.length := by simpa using h
      unfold getLeftChild at this; omega)]
  simp only
  have hm1 : (if (decide (getLeftChild parent < heap.length)
        && ltAt heap (getLeftChild parent) parent) = true
      then ((getLeftChild parent : Nat) : Int) else (parent : Int))
      = ((if (decide (getLeftChild parent < heap.length)
        && ltAt heap (getLeftChild parent) parent) = true
      then getLeftChild parent else parent : Nat) : Int) := by
    split <;> rfl
  rw [hm1]
  have hmin : minIndexOf heap parent
      = if (decide (getRightChild parent < heap.length)
          && ltAt heap (getRightChild parent)
            (if (decide (getLeftChild parent < heap.length)
              && ltAt heap (getLeftChild parent) parent) = true
            then getLeftChild parent else parent)) = true
        then getRightChild parent
        else (if (decide (getLeftChild parent < heap.length)
              && ltAt heap (getLeftChild parent) parent) = true
            then getLeftChild parent else parent) := rfl
  rw [hmin]
  have hm1lt : getRightChild parent < heap.length →
      (if (decide (getLeftChild parent < heap.length)
        && ltAt heap (getLeftChild parent) parent) = true
      then getLeftChild parent else parent) < heap.length := by
    intro h
    unfold getRightChild at h
    split
    · rename_i hc
      simp only [Bool.and_eq_true, decide_eq_true_eq] at hc
      exact hc.1
    · omega
  generalize (if (decide (getLeftChild parent < heap.length)
        && ltAt heap (getLeftChild parent) parent) = true
      then getLeftChild parent else parent) = m1 at *
  rw [guardedLt_cast heap _ (getRightChild parent) m1
    (fun h => by simpa using h)
    (fun h => hm1lt (by simpa using h))]
  simp only
  split <;> rfl

theorem bubbleDownChecked_eq (fuel : Nat) (heap : List (Int × E)) (parent : Nat)
    (hpos : 0 < fuel) (hf : heap.length ≤ fuel + parent)
    (hlen : heap.length ≤ 1073741823) (hpar : parent ≤ 1073741822) :
    bubbleDownChecked fuel heap (parent : Int)
      = Except.ok (bubbleDownAux fuel heap parent) := by
  induction fuel generalizing heap parent with
  | zero => omega
  | succ n ih =>
    rw [bubbleDownAux_succ]
    unfold bubbleDownChecked
    rw [minIndexChecked_cast heap parent hlen hpar]
    simp only
    rcases (minIndexOf_cases heap parent).1 with heq | ⟨h1, h2, _, _⟩
    · simp [heq]
    · have hne : ¬ ((minIndexOf heap parent : Nat) : Int) = (parent : Int) := by omega
      have hne' : minIndexOf heap parent ≠ parent := by omega
      rw [if_pos hne, if_pos hne', readAt_cast heap _ h2, readAt_cast heap parent (by omega)]
      simp only [Int.toNat_ofNat]
      exact ih _ _ (by omega) (by simp only [length_swap]; omega)
        (by simp only [length_swap]; omega) (by omega)

theorem insertChecked_eq (fuel : Nat) (q : PriorityQueue E) (priority : Int) (element : E)
    (hf : q.heap.length < fuel) (hlen : q.heap.length ≤ 1073741822) :
    insertChecked fuel q priority element = Except.ok (insert q priority element) := by
  by_cases hp : 0 ≤ priority
  · have hw : wrapInt (((q.heap ++ [(priority, element)]).length : Int) - 1)
        = ((q.heap.length : Nat) : Int) := by
      rw [wrapInt_of_range _ (by simp only [List.length_append, List.length_singleton]; omega)
        (by simp only [List.length_append, List.length_singleton]; omega)]
      simp only [List.length_append, List.length_singleton]
      omega
    have hge : priority ≥ 0 := hp
    simp only [insertChecked, if_pos hge]
    rw [hw, bubbleUpChecked_eq fuel _ q.heap.length hf (by simp) (by omega),
      bubbleUpAux_fuel fuel _ _ hf]
    have hq : insert q priority element
        = ⟨bubbleUp (q.heap ++ [(priority, element)]) q.heap.length⟩ := by
      simp [insert, hp]
    rw [hq]
  · have hge : ¬ priority ≥ 0 := hp
    simp only [insertChecked, if_neg hge]
    rw [insert_of_neg q priority element (by omega)]

theorem remove_frontChecked_eq [Inhabited E] (fuel : Nat) (q : PriorityQueue E)
    (hf : q.heap.length < fuel) (hlen : q.heap.length ≤ 1073741823) :
    remove_frontChecked fuel q = Except.ok (remove_front q) := by
  cases hh : q.heap with
  | nil =>
    rw [remove_front_nil q hh]
    simp [remove_frontChecked, empty, hh]
  | cons front rest =>
    rw [remove_front_cons q front rest hh]
    rw [hh] at hf hlen
    simp only [List.length_cons] at hf hlen
    have hne : (!q.empty) = true := by simp [empty, hh]
    have hpk : (peek q).1 = front.2 := by simp [peek, empty, hh]
    have hd := bubbleDownChecked_eq fuel (moveLast front rest) 0 (by omega)
      (by rw [length_moveLast]; omega) (by rw [length_moveLast]; omega) (by omega)
    have hfu := bubbleDownAux_fuel fuel (moveLast front rest) 0
      (by rw [length_moveLast]; omega)
    rw [hfu] at hd
    obtain ⟨heap⟩ := q
    simp only at hh
    subst hh
    simp only [remove_frontChecked, hne, if_true]
    simp only [moveLast, Nat.cast_zero] at hd
    rw [hd]
    simp only [hpk, moveLast]

theorem change_priorityChecked_eq (fuel : Nat) (q : PriorityQueue E) (element : E)
    (new_priority : Int) (hf : q.heap.length < fuel) (hlen : q.heap.length ≤ 1073741822) :
    change_priorityChecked fuel q element new_priority
      = Except.ok (change_priority q element new_priority) := by
  have hle : (eraseLoop element q.heap).1.length ≤ q.heap.length := by
    rw [eraseLoop_fst]
    exact List.length_filter_le _ _
  unfold change_priorityChecked change_priority
  simp only
  split
  · exact insertChecked_eq fuel _ new_priority element (by simp only; omega)
      (by simp only; omega)
  · rfl

/-- C18 as stated (`bubbleDown(parent)` is safe for every `parent >= 0`) fails on
the code: on the one-entry vector `[(0, 0)]`, `bubbleDown(1073741823)` computes
`2 * parent + 2 = 2147483648`, which a 32-bit `int` holds as `-2147483648`; this
is below `length = 1`, so `heap[right]` is read outside the vector. -/
theorem C18_bubbleDown_index_overflow :
    getLeftChildInt 1073741823 = 2147483647 ∧
    getRightChildInt 1073741823 = -2147483648 ∧
    readAt [((0 : Int), (0 : Nat))] (getRightChildInt 1073741823)
      = Except.error Fault.indexOutOfRange ∧
    bubbleDownChecked 2 [((0 : Int), (0 : Nat))] 1073741823
      = Except.error Fault.indexOutOfRange := by
  refine ⟨by decide, by decide, by rfl, by rfl⟩

/-- C18, amended: as long as no index computation leaves the range of a 32-bit
`int`, the helpers end within the recursion depth handed to them and read only
inside the vector, with the result of the model.  `bubbleUp(child)` does so for
every `0 <= child < size()` (the parent index lies strictly below a non-zero
child); `bubbleDown(parent)` does so for `0 <= parent <= 1073741822` on a vector
of at most 1073741823 entries (the index it moves to lies strictly above
`parent` and below `size()`); and `insert`, `remove_front` and `change_priority`
do so on a queue of at most 1073741822 entries. -/
theorem C18_total_within_int_range [Inhabited E] (q : PriorityQueue E) (child parent : Nat)
    (x : E) (p : Int) (fuel : Nat) (hfuel : q.heap.length < fuel) :
    (child < q.heap.length → child < 2147483648 →
      bubbleUpChecked fuel q.heap (child : Int) = Except.ok (bubbleUp q.heap child)) ∧
    (0 < child → getParent child < child) ∧
    (q.heap.length ≤ 1073741823 → parent ≤ 1073741822 →
      bubbleDownChecked fuel q.heap (parent : Int) = Except.ok (bubbleDown q.heap parent)) ∧
    (minIndexOf q.heap parent = parent ∨
      (parent < minIndexOf q.heap parent ∧ minIndexOf q.heap parent < q.heap.length)) ∧
    (q.heap.length ≤ 1073741822 →
      insertChecked fuel q p x = Except.ok (insert q p x) ∧
      remove_frontChecked fuel q = Except.ok (remove_front q) ∧
      change_priorityChecked fuel q x p = Except.ok (change_priority q x p)) := by
  refine ⟨?_, getParent_lt, ?_, ?_, ?_⟩
  · intro hc h32
    rw [bubbleUpChecked_eq fuel q.heap child (by omega) hc h32,
      bubbleUpAux_fuel fuel q.heap child (by omega)]
  · intro hlen hp
    rw [bubbleDownChecked_eq fuel q.heap parent (by omega) (by omega) hlen hp,
      bubbleDownAux_fuel fuel q.heap parent (by omega)]
  · rcases (minIndexOf_cases q.heap parent).1 with h | ⟨h1, h2, _, _⟩
    · exact Or.inl h
    · exact Or.inr ⟨h1, h2⟩
  · intro hlen
    exact ⟨insertChecked_eq fuel q p x hfuel hlen,
      remove_frontChecked_eq fuel q hfuel (by omega),
      change_priorityChecked_eq fuel q x p hfuel hlen⟩

/-- Witness of the amended C18: the queue `[(4, 1)]` of size 1, where
`remove_front()` runs `bubbleDown(0)` on the emptied vector, and the calls
`bubbleUp(0)`, `bubbleDown(1073741822)`, `insert(3, 9)` and
`change_priority(1, 3)` on it. -/
theorem C18_total_within_int_range_witness :
    (⟨[(4, 1)]⟩ : PriorityQueue Nat).heap.length < 3 ∧
    (⟨[(4, 1)]⟩ : PriorityQueue Nat).heap.length ≤ 1073741822 ∧
    bubbleUpChecked 3 (⟨[(4, 1)]⟩ : PriorityQueue Nat).heap ((0 : Nat) : Int)
      = Except.ok (bubbleUp (⟨[(4, 1)]⟩ : PriorityQueue Nat).heap 0) ∧
    bubbleDownChecked 3 (⟨[(4, 1)]⟩ : PriorityQueue Nat).heap ((1073741822 : Nat) : Int)
      = Except.ok (bubbleDown (⟨[(4, 1)]⟩ : PriorityQueue Nat).heap 1073741822) ∧
    (insertChecked 3 (⟨[(4, 1)]⟩ : PriorityQueue Nat) 3 9
        = Except.ok (insert (⟨[(4, 1)]⟩ : PriorityQueue Nat) 3 9) ∧
      remove_frontChecked 3 (⟨[(4, 1)]⟩ : PriorityQueue Nat)
        = Except.ok (remove_front (⟨[(4, 1)]⟩ : PriorityQueue Nat)) ∧
      change_priorityChecked 3 (⟨[(4, 1)]⟩ : PriorityQueue Nat) 1 3
        = Except.ok (change_priority (⟨[(4, 1)]⟩ : PriorityQueue Nat) 1 3)) :=
  ⟨by decide, by decide,
   (C18_total_within_int_range ⟨[(4, 1)]⟩ 0 1073741822 1 3 3 (by decide)).1
     (by decide) (by decide),
   (C18_total_within_int_range ⟨[(4, 1)]⟩ 0 1073741822 1 3 3 (by decide)).2.2.1
     (by decide) (by decide),
   ⟨((C18_total_within_int_range ⟨[(4, 1)]⟩ 0 1073741822 9 3 3 (by decide)).2.2.2.2
      (by decide)).1,
    ((C18_total_within_int_range ⟨[(4, 1)]⟩ 0 1073741822 9 3 3 (by decide)).2.2.2.2
      (by decide)).2.1,
    ((C18_total_within_int_range ⟨[(4, 1)]⟩ 0 1073741822 1 3 3 (by decide)).2.2.2.2
      (by decide)).2.2⟩⟩

/-! ## The heap property for a rank that `operator<` respects -/

section Rank

variable {α : Type} [Preorder α] {f : Int × E → α} {d : α}

theorem ltAt_le_by (hf : Respects f) {heap : List (Int × E)} {i j : Nat}
    (hi : i < heap.length) (hj : j < heap.length) (h : ltAt heap i j = true) :
    keyBy f d heap i ≤ keyBy f d heap j := by
  unfold ltAt at h
  unfold keyBy
  rw [List.getElem?_eq_getElem hi, List.getElem?_eq_getElem hj] at h ⊢
  exact (hf _ _).1 h

theorem ltAt_ge_by (hf : Respects f) {heap : List (Int × E)} {i j : Nat}
    (hi : i < heap.length) (hj : j < heap.length) (h : ltAt heap i j = false) :
    keyBy f d heap j ≤ keyBy f d heap i := by
  unfold ltAt at h
  unfold keyBy
  rw [List.getElem?_eq_getElem hi, List.getElem?_eq_getElem hj] at h ⊢
  exact (hf _ _).2 h

theorem keyBy_swap_left {heap : List (Int × E)} {i j : Nat} (hi : i < heap.length)
    (hj : j < heap.length) : keyBy f d (swap heap i j) i = keyBy f d heap j := by
  unfold keyBy; rw [getElem?_swap_left hi hj]

theorem keyBy_swap_right {heap : List (Int × E)} {i j : Nat} (hi : i < heap.length)
    (hj : j < heap.length) : keyBy f d (swap heap i j) j = keyBy f d heap i := by
  unfold keyBy; rw [getElem?_swap_right hi hj]

theorem keyBy_swap_other {heap : List (Int × E)} {i j m : Nat} (hi : m ≠ i)
    (hj : m ≠ j) : keyBy f d (swap heap i j) m = keyBy f d heap m := by
  unfold keyBy; rw [getElem?_swap_other hi hj]

theorem bubbleUpAux_isHeapBy (hf : Respects f) (fuel : Nat) (heap : List (Int × E)) (k : Nat)
    (hfu : k < fuel) (hk : k < heap.length) (inv : UpInvBy f d heap k) :
    IsHeapBy f d (bubbleUpAux fuel heap k) := by
  induction fuel generalizing heap k with
  | zero => omega
  | succ n ih =>
    obtain ⟨inv1, inv2⟩ := inv
    simp only [bubbleUpAux]
    split
    · rename_i h0
      intro i hi hpos
      exact inv1 i hi hpos (by omega)
    · rename_i h0
      have hp : getParent k < k := getParent_lt (by omega)
      have hpl : getParent k < heap.length := by omega
      split
      · rename_i hlt
        have hle : keyBy f d heap k ≤ keyBy f d heap (getParent k) :=
          ltAt_le_by hf hk hpl hlt
        apply ih _ _ (by omega) (by simpa using hpl)
        constructor
        · intro i hi hpos hne
          rw [length_swap] at hi
          by_cases hik : i = k
          · subst hik
            rw [keyBy_swap_left hk hpl, keyBy_swap_right hk hpl]
            exact hle
          · rw [keyBy_swap_other hik hne]
            by_cases hpk : getParent i = k
            · rw [hpk, keyBy_swap_left hk hpl]
              exact inv2 i hi hpos hpk (by omega)
            · by_cases hpp : getParent i = getParent k
              · rw [hpp, keyBy_swap_right hk hpl]
                have := inv1 i hi hpos hik
                rw [hpp] at this
                exact le_trans hle this
              · rw [keyBy_swap_other hpk hpp]
                exact inv1 i hi hpos hik
        · intro i hi hpos hpi hppos
          rw [length_swap] at hi
          have hgp : getParent (getParent k) < getParent k := getParent_lt hppos
          rw [keyBy_swap_other (by omega) (by omega)]
          have h1 := inv1 (getParent k) hpl hppos (by omega)
          by_cases hik : i = k
          · subst hik
            rw [keyBy_swap_left hk hpl]
            exact h1
          · have hip : getParent i < i := getParent_lt hpos
            rw [keyBy_swap_other hik (by omega)]
            have h2 := inv1 i hi hpos hik
            rw [hpi] at h2
            exact le_trans h1 h2
      · rename_i hlt
        have hge : keyBy f d heap (getParent k) ≤ keyBy f d heap k :=
          ltAt_ge_by hf hk hpl (by simpa using hlt)
        intro i hi hpos
        by_cases hik : i = k
        · subst hik; exact hge
        · exact inv1 i hi hpos hik

theorem keyBy_append_left (heap : List (Int × E)) (e : Int × E) {i : Nat}
    (h : i < heap.length) : keyBy f d (heap ++ [e]) i = keyBy f d heap i := by
  unfold keyBy
  rw [List.getElem?_append_left h]

theorem insert_isHeapBy (hf : Respects f) (q : PriorityQueue E) (priority : Int) (element : E)
    (hq : IsHeapBy f d q.heap) : IsHeapBy f d (insert q priority element).heap := by
  by_cases h : 0 ≤ priority
  · rw [insert_heap_of_nonneg q priority element h]
    apply bubbleUpAux_isHeapBy hf _ _ _ (Nat.lt_succ_self _) (by simp)
    constructor
    · intro i hi hpos hne
      have hi' : i < q.heap.length := by
        simp only [List.length_append, List.length_singleton] at hi; omega
      have hp : getParent i < i := getParent_lt hpos
      rw [keyBy_append_left _ _ hi', keyBy_append_left _ _ (by omega)]
      exact hq i hi' hpos
    · intro i hi hpos hpi _
      have hp : getParent i < i := getParent_lt hpos
      simp only [List.length_append, List.length_singleton] at hi
      omega
  · rw [insert_of_neg q priority element (by omega)]
    exact hq

theorem minIndexOf_cases_by (hf : Respects f) (heap : List (Int × E)) (k : Nat) :
    (minIndexOf heap k = k ∨
      (k < minIndexOf heap k ∧ minIndexOf heap k < heap.length ∧
        getParent (minIndexOf heap k) = k ∧
        keyBy f d heap (minIndexOf heap k) ≤ keyBy f d heap k)) ∧
    (∀ i, i < heap.length → 0 < i → getParent i = k →
      keyBy f d heap (minIndexOf heap k) ≤ keyBy f d heap i) := by
  have hchild : ∀ i, 0 < i → getParent i = k → i = 2 * k + 1 ∨ i = 2 * k + 2 := by
    intro i hpos hp
    unfold getParent at hp
    omega
  have hpl : getParent (2 * k + 1) = k := by unfold getParent; omega
  have hpr : getParent (2 * k + 2) = k := by unfold getParent; omega
  unfold minIndexOf getLeftChild getRightChild
  by_cases hL : (decide (2 * k + 1 < heap.length) && ltAt heap (2 * k + 1) k) = true
  · rw [if_pos hL]
    have hL' := hL
    simp only [Bool.and_eq_true, decide_eq_true_eq] at hL'
    have hLk : keyBy f d heap (2 * k + 1) ≤ keyBy f d heap k :=
      ltAt_le_by hf hL'.1 (by omega) hL'.2
    by_cases hR : (decide (2 * k + 2 < heap.length) && ltAt heap (2 * k + 2) (2 * k + 1)) = true
    · rw [if_pos hR]
      simp only [Bool.and_eq_true, decide_eq_true_eq] at hR
      have hRL : keyBy f d heap (2 * k + 2) ≤ keyBy f d heap (2 * k + 1) :=
        ltAt_le_by hf hR.1 hL'.1 hR.2
      refine ⟨Or.inr ⟨by omega, hR.1, hpr, le_trans hRL hLk⟩, ?_⟩
      intro i hi hpos hp
      rcases hchild i hpos hp with rfl | rfl
      · exact hRL
      · exact le_refl _
    · rw [if_neg hR]
      refine ⟨Or.inr ⟨by omega, hL'.1, hpl, hLk⟩, ?_⟩
      intro i hi hpos hp
      rcases hchild i hpos hp with rfl | rfl
      · exact le_refl _
      · have hfalse : ltAt heap (2 * k + 2) (2 * k + 1) = false := by
          simp only [Bool.and_eq_true, decide_eq_true_eq, not_and, Bool.not_eq_true] at hR
          exact hR hi
        exact ltAt_ge_by hf hi hL'.1 hfalse
  · rw [if_neg hL]
    simp only [Bool.and_eq_true, decide_eq_true_eq, not_and, Bool.not_eq_true] at hL
    by_cases hR : (decide (2 * k + 2 < heap.length) && ltAt heap (2 * k + 2) k) = true
    · rw [if_pos hR]
      simp only [Bool.and_eq_true, decide_eq_true_eq] at hR
      have hRk : keyBy f d heap (2 * k + 2) ≤ keyBy f d heap k :=
        ltAt_le_by hf hR.1 (by omega) hR.2
      refine ⟨Or.inr ⟨by omega, hR.1, hpr, hRk⟩, ?_⟩
      intro i hi hpos hp
      rcases hchild i hpos hp with rfl | rfl
      · have hkl : keyBy f d heap k ≤ keyBy f d heap (2 * k + 1) :=
          ltAt_ge_by hf hi (by omega) (hL hi)
        exact le_trans hRk hkl
      · exact le_refl _
    · rw [if_neg hR]
      simp only [Bool.and_eq_true, decide_eq_true_eq, not_and, Bool.not_eq_true] at hR
      refine ⟨Or.inl rfl, ?_⟩
      intro i hi hpos hp
      rcases hchild i hpos hp with rfl | rfl
      · exact ltAt_ge_by hf hi (by omega) (hL hi)
      · exact ltAt_ge_by hf hi (by omega) (hR hi)

theorem bubbleDownAux_isHeapBy (hf : Respects f) (fuel : Nat) (heap : List (Int × E))
    (k : Nat) (hfu : heap.length ≤ fuel + k) (inv : DownInvBy f d heap k) :
    IsHeapBy f d (bubbleDownAux fuel heap k) := by
  induction fuel generalizing heap k with
  | zero =>
    intro i hi hpos
    simp only [bubbleDownAux] at hi ⊢
    have hp : getParent i < i := getParent_lt hpos
    exact inv.1 i hi hpos (by omega)
  | succ n ih =>
    obtain ⟨inv1, inv2⟩ := inv
    rw [bubbleDownAux_succ]
    obtain ⟨hm, hmin⟩ := minIndexOf_cases_by (d := d) hf heap k
    generalize minIndexOf heap k = m at hm hmin
    split
    · rename_i hne
      rcases hm with hm | ⟨hkm, hml, hpm, hmk⟩
      · exact absurd hm hne
      · have hkl : k < heap.length := by omega
        apply ih _ _ (by simp only [length_swap]; omega)
        constructor
        · intro i hi hpos hpi
          rw [length_swap] at hi
          have hip : getParent i < i := getParent_lt hpos
          by_cases him : i = m
          · subst him
            rw [hpm, keyBy_swap_left hml hkl, keyBy_swap_right hml hkl]
            exact hmk
          · by_cases hik : i = k
            · subst hik
              have hgp : getParent i ≠ m := by omega
              rw [keyBy_swap_right hml hkl, keyBy_swap_other hgp (by omega)]
              exact inv2 m hml (by omega) hpm hpos
            · rw [keyBy_swap_other him hik]
              by_cases hpk : getParent i = k
              · rw [hpk, keyBy_swap_right hml hkl]
                exact hmin i hi hpos hpk
              · rw [keyBy_swap_other hpi hpk]
                exact inv1 i hi hpos hpk
        · intro i hi hpos hpi _
          rw [length_swap] at hi
          have hip : getParent i < i := getParent_lt hpos
          rw [hpm, keyBy_swap_right hml hkl, keyBy_swap_other (by omega) (by omega)]
          have := inv1 i hi hpos (by omega)
          rw [hpi] at this
          exact this
    · rename_i hne
      have hmk : m = k := by
        by_contra h
        exact hne h
      subst hmk
      intro i hi hpos
      by_cases hpk : getParent i = m
      · rw [hpk]; exact hmin i hi hpos hpk
      · exact inv1 i hi hpos hpk

theorem keyBy_moveLast (front : Int × E) (rest : List (Int × E)) {i : Nat} (hpos : 0 < i)
    (hi : i < rest.length) :
    keyBy f d (moveLast front rest) i = keyBy f d (front :: rest) i := by
  unfold keyBy moveLast
  rw [List.getElem?_dropLast]
  have h1 : i < ((front :: rest).set 0
      ((front :: rest).getLast (List.cons_ne_nil front rest))).length - 1 := by
    simp only [List.length_set, List.length_cons]; omega
  rw [if_pos h1, List.getElem?_set_ne (by omega)]

theorem remove_front_isHeapBy [Inhabited E] (hf : Respects f) (q : PriorityQueue E)
    (hq : IsHeapBy f d q.heap) : IsHeapBy f d (remove_front q).2.heap := by
  cases hh : q.heap with
  | nil => rw [remove_front_nil q hh, hh]; rw [hh] at hq; exact hq
  | cons front rest =>
    rw [remove_front_cons q front rest hh]
    rw [hh] at hq
    apply bubbleDownAux_isHeapBy hf _ _ _ (by omega)
    constructor
    · intro i hi hpos hp
      rw [length_moveLast] at hi
      have hip : getParent i < i := getParent_lt hpos
      rw [keyBy_moveLast front rest (by omega) (by omega), keyBy_moveLast front rest hpos hi]
      exact hq i (by simp only [List.length_cons]; omega) hpos
    · intro i _ _ _ h0
      omega

theorem isHeapBy_root_le (heap : List (Int × E)) (h : IsHeapBy f d heap) (i : Nat)
    (hi : i < heap.length) : keyBy f d heap 0 ≤ keyBy f d heap i := by
  induction i using Nat.strong_induction_on with
  | _ i ih =>
    by_cases hpos : 0 < i
    · have hp : getParent i < i := getParent_lt hpos
      exact le_trans (ih (getParent i) hp (by omega)) (h i hi hpos)
    · have : i = 0 := by omega
      subst this
      exact le_refl _

theorem isHeapBy_head_le (front : Int × E) (rest : List (Int × E))
    (h : IsHeapBy f d (front :: rest)) (e : Int × E) (he : e ∈ front :: rest) :
    f front ≤ f e := by
  obtain ⟨i, hi, hget⟩ := List.getElem_of_mem he
  have := isHeapBy_root_le (front :: rest) h i hi
  unfold keyBy at this
  rw [List.getElem?_eq_getElem hi, hget] at this
  simpa using this

theorem isHeapBy_nil : IsHeapBy f d ([] : List (Int × E)) := by
  intro i hi
  simp at hi

theorem foldl_insert_isHeapBy (hf : Respects f) (entries : List (Int × E))
    (q : PriorityQueue E) (hq : IsHeapBy f d q.heap) :
    IsHeapBy f d (entries.foldl (fun acc e => insert acc e.1 e.2) q).heap := by
  induction entries generalizing q with
  | nil => exact hq
  | cons e es ih =>
    rw [List.foldl_cons]
    exact ih _ (insert_isHeapBy hf q e.1 e.2 hq)

theorem drainElements_sorted_perm [Inhabited E] (hf : Respects f) (n : Nat)
    (q : PriorityQueue E) (hn : q.heap.length = n) (hq : IsHeapBy f d q.heap) :
    ∃ out : List (Int × E), out.Perm q.heap ∧ (out.map f).Sorted (· ≤ ·) ∧
      drainElements n q = out.map Prod.snd := by
  induction n generalizing q with
  | zero =>
    have : q.heap = [] := List.length_eq_zero.mp hn
    exact ⟨[], by simp [this], by simp, rfl⟩
  | succ m ih =>
    cases hh : q.heap with
    | nil => rw [hh] at hn; simp at hn
    | cons front rest =>
      have hperm := remove_front_perm q front rest hh
      have hlen : (remove_front q).2.heap.length = m := by
        rw [hperm.length_eq]; rw [hh] at hn; simpa using hn
      obtain ⟨out, hp, hs, hd⟩ :=
        ih (remove_front q).2 hlen (remove_front_isHeapBy hf q hq)
      have hfront : (remove_front q).1 = front.2 := by
        rw [remove_front_cons q front rest hh]
      refine ⟨front :: out, (hp.trans hperm).cons front, ?_, ?_⟩
      · rw [List.map_cons]
        refine List.sorted_cons.mpr ⟨?_, hs⟩
        intro b hb
        obtain ⟨e, he, rfl⟩ := List.mem_map.mp hb
        rw [hh] at hq
        exact isHeapBy_head_le front rest hq e
          (List.mem_cons_of_mem _ ((hp.trans hperm).subset he))
      · simp only [drainElements, hfront, hd, List.map_cons]

end Rank

/-! ## The lexicographic order of the pairs -/

section Lexicographic

variable {F : Type} [LinearOrder F]

theorem pairLt_iff_lex (a b : Int × F) : pairLt a b = true ↔ toLex a < toLex b := by
  rw [Prod.Lex.lt_iff]
  simp only [pairLt, Bool.or_eq_true, Bool.and_eq_true, decide_eq_true_eq,
    Bool.not_eq_true', decide_eq_false_iff_not]
  constructor
  · rintro (h | ⟨_, h2⟩)
    · exact Or.inl h
    · by_cases h : a.1 < b.1
      · exact Or.inl h
      · exact Or.inr ⟨by omega, h2⟩
  · rintro (h | ⟨h1, h2⟩)
    · exact Or.inl h
    · exact Or.inr ⟨by omega, h2⟩

theorem respects_toLex : Respects (fun e : Int × F => toLex e) := by
  intro a b
  constructor
  · intro h
    exact le_of_lt ((pairLt_iff_lex a b).mp h)
  · intro h
    have hn : ¬ toLex a < toLex b := by
      rw [← pairLt_iff_lex, h]
      exact Bool.false_ne_true
    exact not_lt.mp hn

theorem drainElements_eq_sorted [Inhabited F] (q : PriorityQueue F) (src : List (Int × F))
    (hq : IsHeapBy (fun e : Int × F => toLex e) (toLex ((0 : Int), (default : F))) q.heap)
    (hsrc : q.heap.Perm src) :
    drainElements q.size.toNat q
      = ((src.map (fun e => toLex e)).insertionSort (· ≤ ·)).map (fun e => (ofLex e).2) := by
  obtain ⟨out, hp, hs, hd⟩ := drainElements_sorted_perm respects_toLex q.size.toNat q
    (by simp [size]) hq
  have heq : out.map (fun e => toLex e)
      = (src.map (fun e => toLex e)).insertionSort (· ≤ ·) :=
    List.eq_of_perm_of_sorted
      ((((hp.trans hsrc).map _)).trans (List.perm_insertionSort _ _).symm)
      hs (List.sorted_insertionSort _ _)
  rw [hd, ← heq, List.map_map]
  rfl

end Lexicographic

/-- C20 as stated (for every element type, queues built from the same multiset
of pairs return the same sequence of elements) fails on the code: with the
element type `Tagged`, whose `operator<` looks at the rank only, the pairs
`(0, {0, 1})` and `(0, {0, 2})` tie in priority and in rank, no swap ever
happens, and the two insertion orders are drained with the tags `1, 2` and
`2, 1`. -/
theorem C20_tie_order_depends_on_insertion :
    [((0 : Int), (⟨0, 1⟩ : Tagged)), (0, ⟨0, 2⟩)].Perm [(0, ⟨0, 2⟩), (0, ⟨0, 1⟩)] ∧
    (drainElements ([((0 : Int), (⟨0, 1⟩ : Tagged)), (0, ⟨0, 2⟩)].foldl
          (fun acc e => insert acc e.1 e.2) new).size.toNat
        ([((0 : Int), (⟨0, 1⟩ : Tagged)), (0, ⟨0, 2⟩)].foldl
          (fun acc e => insert acc e.1 e.2) new)).map Tagged.tag = [1, 2] ∧
    (drainElements ([((0 : Int), (⟨0, 2⟩ : Tagged)), (0, ⟨0, 1⟩)].foldl
          (fun acc e => insert acc e.1 e.2) new).size.toNat
        ([((0 : Int), (⟨0, 2⟩ : Tagged)), (0, ⟨0, 1⟩)].foldl
          (fun acc e => insert acc e.1 e.2) new)).map Tagged.tag = [2, 1] ∧
    drainElements ([((0 : Int), (⟨0, 1⟩ : Tagged)), (0, ⟨0, 2⟩)].foldl
          (fun acc e => insert acc e.1 e.2) new).size.toNat
        ([((0 : Int), (⟨0, 1⟩ : Tagged)), (0, ⟨0, 2⟩)].foldl
          (fun acc e => insert acc e.1 e.2) new)
      ≠ drainElements ([((0 : Int), (⟨0, 2⟩ : Tagged)), (0, ⟨0, 1⟩)].foldl
          (fun acc e => insert acc e.1 e.2) new).size.toNat
        ([((0 : Int), (⟨0, 2⟩ : Tagged)), (0, ⟨0, 1⟩)].foldl
          (fun acc e => insert acc e.1 e.2) new) := by
  decide

/-- C20, amended: for an element type whose `operator<` is a linear order, the
pairs are compared lexicographically (priority first, then element).  In every
queue built from the empty queue by `insert` calls each parent pair is
lexicographically at most its children, draining the whole queue with
`remove_front()` returns the elements of the inserted pairs in lexicographic
order of the pairs, and two queues built from the same multiset of pairs in
different orders return the same sequence of elements. -/
theorem C20_lexicographic_tie_break {F : Type} [LinearOrder F] [Inhabited F]
    (l₁ l₂ : List (Int × F)) :
    (∀ a b : Int × F, pairLt a b = true ↔ toLex a < toLex b) ∧
    (∀ (i : Nat) (c p : Int × F), 0 < i →
      (l₁.foldl (fun acc e => insert acc e.1 e.2) new).heap[i]? = some c →
      (l₁.foldl (fun acc e => insert acc e.1 e.2) new).heap[getParent i]? = some p →
      toLex p ≤ toLex c) ∧
    drainElements (l₁.foldl (fun acc e => insert acc e.1 e.2) new).size.toNat
        (l₁.foldl (fun acc e => insert acc e.1 e.2) new)
      = (((l₁.filter (fun e => decide (0 ≤ e.1))).map
          (fun e => toLex e)).insertionSort (· ≤ ·)).map (fun e => (ofLex e).2) ∧
    (l₁.Perm l₂ →
      drainElements (l₁.foldl (fun acc e => insert acc e.1 e.2) new).size.toNat
          (l₁.foldl (fun acc e => insert acc e.1 e.2) new)
        = drainElements (l₂.foldl (fun acc e => insert acc e.1 e.2) new).size.toNat
          (l₂.foldl (fun acc e => insert acc e.1 e.2) new)) := by
  have hheap : ∀ l : List (Int × F),
      IsHeapBy (fun e : Int × F => toLex e) (toLex ((0 : Int), (default : F)))
        (l.foldl (fun acc e => insert acc e.1 e.2) (new : PriorityQueue F)).heap :=
    fun l => foldl_insert_isHeapBy respects_toLex l new isHeapBy_nil
  have hperm : ∀ l : List (Int × F),
      (l.foldl (fun acc e => insert acc e.1 e.2) (new : PriorityQueue F)).heap.Perm
        (l.filter (fun e => decide (0 ≤ e.1))) := by
    intro l
    have := insert_all_perm (new : PriorityQueue F) l
    simpa [insert_all, new] using this
  have hdrain := fun l => drainElements_eq_sorted _ _ (hheap l) (hperm l)
  refine ⟨pairLt_iff_lex, ?_, hdrain l₁, ?_⟩
  · intro i c p hpos hc hp
    have hi : i < (l₁.foldl (fun acc e => insert acc e.1 e.2)
        (new : PriorityQueue F)).heap.length := by
      by_contra hcon
      rw [List.getElem?_eq_none_iff.mpr (by omega)] at hc
      exact Option.noConfusion hc
    have := hheap l₁ i hi hpos
    simpa [keyBy, hc, hp] using this
  · intro h12
    rw [hdrain l₁, hdrain l₂]
    congr 1
    have hp2 := ((h12.filter (fun e => decide (0 ≤ e.1))).map (fun e : Int × F => toLex e))
    exact List.eq_of_perm_of_sorted
      (((List.perm_insertionSort _ _).trans hp2).trans (List.perm_insertionSort _ _).symm)
      (List.sorted_insertionSort _ _) (List.sorted_insertionSort _ _)

/-- Witness of the amended C20: the pairs `(1, 5)`, `(1, 3)`, `(2, 0)` inserted in two
different orders; both queues return the elements 3, 5, 0. -/
theorem C20_lexicographic_tie_break_witness :
    [((1 : Int), (5 : Nat)), (1, 3), (2, 0)].Perm [(2, 0), (1, 3), (1, 5)] ∧
    drainElements ([((1 : Int), (5 : Nat)), (1, 3), (2, 0)].foldl
          (fun acc e => insert acc e.1 e.2) new).size.toNat
        ([((1 : Int), (5 : Nat)), (1, 3), (2, 0)].foldl
          (fun acc e => insert acc e.1 e.2) new)
      = drainElements ([((2 : Int), (0 : Nat)), (1, 3), (1, 5)].foldl
          (fun acc e => insert acc e.1 e.2) new).size.toNat
        ([((2 : Int), (0 : Nat)), (1, 3), (1, 5)].foldl
          (fun acc e => insert acc e.1 e.2) new) ∧
    drainElements ([((1 : Int), (5 : Nat)), (1, 3), (2, 0)].foldl
          (fun acc e => insert acc e.1 e.2) new).size.toNat
        ([((1 : Int), (5 : Nat)), (1, 3), (2, 0)].foldl
          (fun acc e => insert acc e.1 e.2) new) = [3, 5, 0] :=
  ⟨by decide,
   (C20_lexicographic_tie_break [((1 : Int), (5 : Nat)), (1, 3), (2, 0)]
     [(2, 0), (1, 3), (1, 5)]).2.2.2 (by decide),
   by decide⟩

end PriorityQueue
